import Mathlib

/-!
Shallow embedding of the identity-resolution / table-merge core of
`scrape.py` (websiteScraper).  Python strings are modelled as `List Char`,
Python dicts as association lists (first occurrence wins on lookup,
in-place replacement on assignment), and fallible operations return
`Option` / `Except`.
-/

namespace Scrape

/-- Python strings, modelled as lists of characters. -/
abbrev Str := List Char

/-- Convert a Lean string literal into the model's string type. -/
def str (s : String) : Str := s.data

/-- One character of `str.lower()` (ASCII model). -/
def lowerChar (c : Char) : Char :=
  if 65 ≤ c.toNat ∧ c.toNat ≤ 90 then Char.ofNat (c.toNat + 32) else c

/-- Whitespace test used by `str.strip()` / `str.split()`. -/
def isWs (c : Char) : Bool := c.isWhitespace

/-- `s.lower()`. -/
def pyLower (s : Str) : Str := s.map lowerChar

/-- `s.strip()`: drop leading and trailing whitespace. -/
def pyStrip (s : Str) : Str :=
  ((s.dropWhile isWs).reverse.dropWhile isWs).reverse

/-- Accumulator worker for `s.split()` (split on whitespace runs, drop
empty chunks).  `acc` holds the current word reversed. -/
def pySplitAux : Str → Str → List Str
  | [], acc => if acc = [] then [] else [acc.reverse]
  | c :: cs, acc =>
    if isWs c then
      if acc = [] then pySplitAux cs [] else acc.reverse :: pySplitAux cs []
    else pySplitAux cs (c :: acc)

/-- `s.split()` with no separator argument. -/
def pySplit (s : Str) : List Str := pySplitAux s []

/-- `" ".join(words)`. -/
def joinWords : List Str → Str
  | [] => []
  | [w] => w
  | w :: ws => w ++ ' ' :: joinWords ws

/-- `normalize` from scrape.py: `""` for falsy input, otherwise
lower-case, strip, and collapse whitespace runs to single spaces. -/
def normalize (s : Str) : Str :=
  if s = [] then [] else joinWords (pySplit (pyLower (pyStrip s)))

/-- `make_key` from scrape.py:
`"|".join([normalize(name), str(birth_year or "").strip(), normalize(team or "")])`.
`birth_year` and `team` are `row.get` results, hence `Option`. -/
def make_key (name : Str) (birth_year team : Option Str) : Str :=
  normalize name ++ '|' :: pyStrip (birth_year.getD []) ++ '|' :: normalize (team.getD [])

/-! ## Python dicts as association lists -/

/-- `d.get(k)`: first binding wins (keys are unique in a real dict). -/
def lookupA {β : Type} (d : List (Str × β)) (k : Str) : Option β :=
  (d.find? (fun p => decide (p.1 = k))).map (fun p => p.2)

/-- The first option if present, else the fallback. -/
def firstSome {β : Type} (o fallback : Option β) : Option β :=
  match o with
  | some v => some v
  | none => fallback

/-- `d[k] = v`: replace the value of the first binding of `k` in place,
or append a fresh binding at the end (dict insertion order). -/
def insertA {β : Type} : List (Str × β) → Str → β → List (Str × β)
  | [], k, v => [(k, v)]
  | p :: d, k, v => if p.1 = k then (k, v) :: d else p :: insertA d k v

/-- The key list of a dict, in insertion order. -/
def keysOf {β : Type} (d : List (Str × β)) : List Str := d.map (fun p => p.1)

/-- A scraped row: a dict from column name to text. -/
abbrev Row := List (Str × Str)

/-- The identifier column name, `"player_id"`. -/
def pidS : Str := str "player_id"

/-- Python `a or b` on two `.get` results (falsy = `None` or `""`). -/
def pyOr (a b : Option Str) : Option Str :=
  match a with
  | none => b
  | some s => if s = [] then b else some s

/-- `get_or_create_player_id` from scrape.py, with the `[max_id]`
reference cell made explicit: returns the optional id together with the
updated mapping and `max_id`. -/
def get_or_create_player_id (row : Row) (mapping : List (Str × Nat)) (max_id : Nat) :
    Option Nat × List (Str × Nat) × Nat :=
  let name := pyOr (lookupA row (str "player")) (lookupA row (str "player_name"))
  match name with
  | none => (none, mapping, max_id)
  | some n =>
    if n = [] then (none, mapping, max_id)
    else
      let key := make_key n (lookupA row (str "birth_year")) (lookupA row (str "team"))
      match lookupA mapping key with
      | some pid => (some pid, mapping, max_id)
      | none => (some (max_id + 1), insertA mapping key (max_id + 1), max_id + 1)

/-! ## Identity index persistence -/

/-- A record of the persisted identity index file (one CSV line of
`save_index`): identifier, key, and the key's three decomposed parts. -/
structure IndexRecord where
  player_id : Nat
  key : Str
  norm_name : Str
  birth_year : Str
  norm_team : Str
deriving DecidableEq

/-- Split a string at the first occurrence of `c`; `none` if absent. -/
def splitOnce (c : Char) : Str → Option (Str × Str)
  | [] => none
  | d :: s =>
    if d = c then some ([], s)
    else (splitOnce c s).map (fun p => (d :: p.1, p.2))

/-- `key.split("|", 2)` followed by unpacking into three variables;
`none` models the `ValueError` raised when fewer than three parts. -/
def split2bar (s : Str) : Option (Str × Str × Str) :=
  match splitOnce '|' s with
  | none => none
  | some (a, r) =>
    match splitOnce '|' r with
    | none => none
    | some (b, t) => some (a, b, t)

/-- Option-valued map that fails on the first failing element (the loop
in `save_index` raises at the first malformed key). -/
def mapO {α β : Type} (f : α → Option β) : List α → Option (List β)
  | [] => some []
  | a :: l =>
    match f a, mapO f l with
    | some b, some bs => some (b :: bs)
    | _, _ => none

instance : DecidableRel (fun p q : Str × Nat => p.2 ≤ q.2) :=
  fun p q => Nat.decLe p.2 q.2

/-- `save_index` from scrape.py, modelled as the list of records it
writes: mapping items sorted by identifier, each key decomposed by
`key.split("|", 2)`. -/
def save_index (mapping : List (Str × Nat)) : Option (List IndexRecord) :=
  let sorted := (mapping.insertionSort (fun p q => p.2 ≤ q.2))
  mapO
    (fun p =>
      (split2bar p.1).map
        (fun x =>
          { player_id := p.2, key := p.1, norm_name := x.1,
            birth_year := x.2.1, norm_team := x.2.2 }))
    sorted

/-! ## Master-table database helpers -/

/-- A persisted CSV file: header fields plus data rows; `none` models an
absent file. -/
abbrev DbFile := Option (List Str × List Row)

/-- The data rows of a (possibly absent) persisted file. -/
def fileRows (file : DbFile) : List Row :=
  match file with
  | none => []
  | some (_, rows) => rows

/-- The header the `load_database` reader reports:
`reader.fieldnames[:] if reader.fieldnames else ["player_id"]`, or the
absent-file default. -/
def dbFields (file : DbFile) : List Str :=
  match file with
  | none => [pidS]
  | some (fs, _) => if fs = [] then [pidS] else fs

/-- One iteration of the row-loading loop of `load_database`: rows
whose `player_id` is missing or empty are skipped
(`if not pid: continue`); the rest are stored under the identifier. -/
def loadStep (acc : List (Str × Row)) (row : Row) : List (Str × Row) :=
  match lookupA row pidS with
  | none => acc
  | some pid => if pid = [] then acc else insertA acc pid row

/-- The row-loading loop of `load_database`. -/
def buildDbRows (rows : List Row) : List (Str × Row) :=
  rows.foldl loadStep []

/-- `load_database` from scrape.py: `(rows-dict, fieldnames)`. -/
def load_database (file : DbFile) : List (Str × Row) × List Str :=
  (buildDbRows (fileRows file), dbFields file)

/-- The deduplicating loop of `merge_fieldnames`: append each field of
`l` not already present to `acc` (first-seen order). -/
def dedupAppend (acc : List Str) (l : List Str) : List Str :=
  l.foldl (fun m f => if f ∈ m then m else m ++ [f]) acc

/-- `merge_fieldnames` from scrape.py. -/
def merge_fieldnames (existing incoming : List Str) : List Str :=
  let merged := dedupAppend (dedupAppend [] existing) incoming
  if pidS ∈ merged then
    pidS :: merged.filter (fun f => ¬ f = pidS)
  else
    pidS :: merged

/-- `existing.update(row)`: assign each of `row`'s bindings in order. -/
def dictUpdate (d r : Row) : Row :=
  r.foldl (fun d p => insertA d p.1 p.2) d

/-- The upsert loop of `update_database`: skip rows whose `player_id`
key is absent, otherwise merge onto the existing row or a fresh seed
`{"player_id": pid}`. -/
def mergeRows (db : List (Str × Row)) (incoming : List Row) : List (Str × Row) :=
  incoming.foldl
    (fun db row =>
      match lookupA row (pidS) with
      | none => db
      | some pid =>
        insertA db pid (dictUpdate ((lookupA db pid).getD [(pidS, pid)]) row))
    db

/-- `row.setdefault(field, "")` for each output field in order. -/
def backfillRow (fields : List Str) (r : Row) : Row :=
  fields.foldl (fun r f => if (lookupA r f).isSome then r else r ++ [(f, [])]) r

/-- Python `s.isdigit()` (ASCII model): nonempty and all digits. -/
def pyIsdigit (s : Str) : Bool := !s.isEmpty && s.all Char.isDigit

/-- `int(s)` for a digit string. -/
def strToNat (s : Str) : Nat := s.foldl (fun n c => 10 * n + (c.toNat - 48)) 0

/-- Errors surfaced while writing the updated database: the `TypeError`
raised by `sorted` on a mixed int/str key list, and the `ValueError`
raised by `csv.DictWriter` on a row key outside the header. -/
inductive DbError
  | typeError
  | valueError
deriving DecidableEq

instance {α β : Type} [DecidableEq α] [DecidableEq β] : DecidableEq (Except α β) :=
  fun a b =>
    match a, b with
    | Except.ok x, Except.ok y =>
      if h : x = y then Decidable.isTrue (by rw [h])
      else Decidable.isFalse (by simp [h])
    | Except.error x, Except.error y =>
      if h : x = y then Decidable.isTrue (by rw [h])
      else Decidable.isFalse (by simp [h])
    | Except.ok _, Except.error _ => Decidable.isFalse (by simp)
    | Except.error _, Except.ok _ => Decidable.isFalse (by simp)

instance : DecidableRel (fun a b : Str => strToNat a ≤ strToNat b) :=
  fun a b => Nat.decLe (strToNat a) (strToNat b)

instance : DecidableRel (fun a b : Str => a ≤ b) :=
  fun a b => inferInstanceAs (Decidable (a ≤ b))

instance : IsTotal Str (fun a b => strToNat a ≤ strToNat b) :=
  ⟨fun a b => Nat.le_total (strToNat a) (strToNat b)⟩

instance : IsTrans Str (fun a b => strToNat a ≤ strToNat b) :=
  ⟨fun _ _ _ h1 h2 => Nat.le_trans h1 h2⟩

instance : IsTotal Str (fun a b : Str => a ≤ b) :=
  ⟨fun a b => le_total a b⟩

instance : IsTrans Str (fun a b : Str => a ≤ b) :=
  ⟨fun _ _ _ h1 h2 => le_trans h1 h2⟩

instance : IsAntisymm Str (fun a b : Str => a ≤ b) :=
  ⟨fun _ _ h1 h2 => le_antisymm h1 h2⟩

/-- `sorted(keys, key=lambda x: int(x) if x.isdigit() else x)`: numeric
order when every key is a digit string, lexical order when none is, and
a `TypeError` (comparison of `int` with `str`) when the kinds mix. -/
def sortPids (ks : List Str) : Except DbError (List Str) :=
  if ks.all pyIsdigit then
    Except.ok (ks.insertionSort (fun a b => strToNat a ≤ strToNat b))
  else if ks.all (fun k => !pyIsdigit k) then
    Except.ok (ks.insertionSort (fun a b => a ≤ b))
  else Except.error DbError.typeError

/-- One output row of `update_database`: the stored row for `k`,
backfilled to the full output schema. -/
def outRow (fns : List Str) (db : List (Str × Row)) (k : Str) : Row :=
  backfillRow fns ((lookupA db k).getD [])

/-- `update_database` from scrape.py, modelled as the `(fieldnames,
ordered_rows)` pair it writes back, or the error aborting the write. -/
def update_database (file : DbFile) (incoming_rows : List Row)
    (incoming_fields : List Str) : Except DbError (List Str × List Row) :=
  let fns := merge_fieldnames (load_database file).2 incoming_fields
  let db := mergeRows (load_database file).1 incoming_rows
  match sortPids (keysOf db) with
  | Except.error e => Except.error e
  | Except.ok ks =>
    let rows := ks.map (outRow fns db)
    if rows.all (fun r => r.all (fun p => decide (p.1 ∈ fns))) then
      Except.ok (fns, rows)
    else Except.error DbError.valueError

/-- The column union described by the specification: first-seen-order
deduplication of a single concatenated list (spec-side definition, for
comparison with `merge_fieldnames`). -/
def specFirstSeenDedup (l : List Str) : List Str :=
  l.foldl (fun acc x => if x ∈ acc then acc else acc ++ [x]) []

/-- The identifiers carried by a batch of incoming rows, in order
(rows whose `player_id` key is absent contribute nothing). -/
def pidsOf (batch : List Row) : List Str :=
  batch.filterMap (fun r => lookupA r pidS)

/-- The effect of one upsert-loop iteration on the stored row of a
fixed identifier `k`. -/
def upsertStep (k : Str) (o : Option Row) (r : Row) : Option Row :=
  match lookupA r pidS with
  | none => o
  | some p => if p = k then some (dictUpdate (o.getD [(pidS, k)]) r) else o

/-- The rows of a batch carrying identifier `k`. -/
def pidFilter (k : Str) (batch : List Row) : List Row :=
  batch.filter (fun r => decide (lookupA r pidS = some k))

/-! ## Association-list lemmas -/

theorem lookupA_nil {β : Type} (k : Str) : lookupA ([] : List (Str × β)) k = none := rfl

theorem lookupA_cons {β : Type} (p : Str × β) (d : List (Str × β)) (k : Str) :
    lookupA (p :: d) k = if p.1 = k then some p.2 else lookupA d k := by
  by_cases h : p.1 = k
  · simp [lookupA, List.find?_cons, h]
  · simp [lookupA, List.find?_cons, h]

theorem lookupA_append {β : Type} (d e : List (Str × β)) (k : Str) :
    lookupA (d ++ e) k = firstSome (lookupA d k) (lookupA e k) := by
  induction d with
  | nil =>
    rw [List.nil_append, lookupA_nil]
    rfl
  | cons p d ih =>
    rw [List.cons_append, lookupA_cons, lookupA_cons]
    by_cases h : p.1 = k
    · rw [if_pos h, if_pos h]
      rfl
    · rw [if_neg h, if_neg h, ih]

theorem lookupA_insertA {β : Type} (d : List (Str × β)) (k : Str) (v : β) (q : Str) :
    lookupA (insertA d k v) q = if k = q then some v else lookupA d q := by
  induction d with
  | nil =>
    show lookupA [(k, v)] q = _
    by_cases hq : k = q <;> simp [lookupA_cons, lookupA_nil, hq]
  | cons p d ih =>
    show lookupA (if p.1 = k then (k, v) :: d else p :: insertA d k v) q = _
    by_cases hp : p.1 = k
    · by_cases hq : k = q
      · simp [hp, hq, lookupA_cons]
      · have hpq : ¬ p.1 = q := fun h => hq (hp.symm.trans h)
        simp [hp, hq, hpq, lookupA_cons]
    · by_cases hq2 : p.1 = q
      · have hkq : ¬ k = q := fun h => hp (hq2.trans h.symm)
        rw [if_neg hp]
        simp [lookupA_cons, hq2, hkq]
      · simp [hp, hq2, lookupA_cons, ih]

theorem keysOf_nil {β : Type} : keysOf ([] : List (Str × β)) = [] := rfl

theorem keysOf_cons {β : Type} (p : Str × β) (d : List (Str × β)) :
    keysOf (p :: d) = p.1 :: keysOf d := rfl

theorem keysOf_append {β : Type} (d e : List (Str × β)) :
    keysOf (d ++ e) = keysOf d ++ keysOf e := by
  simp only [keysOf, List.map_append]

theorem keysOf_insertA {β : Type} (d : List (Str × β)) (k : Str) (v : β) :
    keysOf (insertA d k v) = if k ∈ keysOf d then keysOf d else keysOf d ++ [k] := by
  induction d with
  | nil =>
    show keysOf [(k, v)] = _
    rw [if_neg (by simp [keysOf_nil])]
    rfl
  | cons p d ih =>
    show keysOf (if p.1 = k then (k, v) :: d else p :: insertA d k v) = _
    by_cases hp : p.1 = k
    · simp [hp, keysOf_cons]
    · have hkp : ¬ k = p.1 := fun h => hp h.symm
      by_cases hm : k ∈ keysOf d <;> simp [hp, hkp, hm, keysOf_cons, ih]

theorem mem_keysOf_insertA {β : Type} (d : List (Str × β)) (k : Str) (v : β) (q : Str) :
    q ∈ keysOf (insertA d k v) ↔ q ∈ keysOf d ∨ q = k := by
  rw [keysOf_insertA]
  by_cases hm : k ∈ keysOf d
  · rw [if_pos hm]
    constructor
    · exact fun h => Or.inl h
    · rintro (h | rfl)
      · exact h
      · exact hm
  · rw [if_neg hm]
    simp

theorem nodup_keysOf_insertA {β : Type} (d : List (Str × β)) (k : Str) (v : β)
    (h : (keysOf d).Nodup) : (keysOf (insertA d k v)).Nodup := by
  rw [keysOf_insertA]
  by_cases hm : k ∈ keysOf d
  · rw [if_pos hm]; exact h
  · rw [if_neg hm]
    exact h.append (List.nodup_singleton k)
      (fun a ha hb => hm ((List.mem_singleton.mp hb) ▸ ha))

theorem lookupA_eq_none_iff {β : Type} (d : List (Str × β)) (k : Str) :
    lookupA d k = none ↔ k ∉ keysOf d := by
  induction d with
  | nil => simp [lookupA_nil, keysOf_nil]
  | cons p d ih =>
    rw [lookupA_cons, keysOf_cons]
    by_cases h : p.1 = k
    · rw [if_pos h]
      simp [h]
    · rw [if_neg h, ih]
      have : ¬ k = p.1 := fun hh => h hh.symm
      simp [this]

theorem lookupA_isSome_iff {β : Type} (d : List (Str × β)) (k : Str) :
    (lookupA d k).isSome ↔ k ∈ keysOf d := by
  have h := lookupA_eq_none_iff d k
  cases hx : lookupA d k with
  | none => simp only [Option.isSome_none, Bool.false_eq_true, false_iff]
            exact (h.mp hx)
  | some v => simp only [Option.isSome_some, true_iff]
              by_contra hk
              rw [h.mpr hk] at hx
              exact Option.noConfusion hx

theorem insertA_of_not_mem {β : Type} (d : List (Str × β)) (k : Str) (v : β)
    (h : k ∉ keysOf d) : insertA d k v = d ++ [(k, v)] := by
  induction d with
  | nil => rfl
  | cons p d ih =>
    rw [keysOf_cons, List.mem_cons] at h
    push_neg at h
    show (if p.1 = k then (k, v) :: d else p :: insertA d k v) = _
    rw [if_neg (fun hh => h.1 hh.symm), ih h.2, List.cons_append]

/-- Extensionality for proper dicts: equal key sequences and equal
lookups force equal association lists. -/
theorem assoc_ext {β : Type} :
    ∀ (d1 d2 : List (Str × β)), (keysOf d1).Nodup → keysOf d1 = keysOf d2 →
      (∀ k, lookupA d1 k = lookupA d2 k) → d1 = d2
  | [], [], _, _, _ => rfl
  | [], p :: d2, _, hk, _ => by rw [keysOf_nil, keysOf_cons] at hk; exact List.noConfusion hk
  | p :: d1, [], _, hk, _ => by rw [keysOf_nil, keysOf_cons] at hk; exact List.noConfusion hk
  | p :: d1, q :: d2, hnd, hk, hl => by
    rw [keysOf_cons, keysOf_cons] at hk
    injection hk with hk1 hk2
    have hv : some p.2 = some q.2 := by
      have h := hl p.1
      rw [lookupA_cons, lookupA_cons, if_pos rfl, if_pos hk1.symm] at h
      exact h
    injection hv with hv
    rw [keysOf_cons, List.nodup_cons] at hnd
    have htl : ∀ k, lookupA d1 k = lookupA d2 k := by
      intro k
      by_cases h : p.1 = k
      · subst h
        rw [(lookupA_eq_none_iff d1 p.1).mpr hnd.1,
          (lookupA_eq_none_iff d2 p.1).mpr (hk2 ▸ hnd.1)]
      · have hh := hl k
        have hq : ¬ q.1 = k := hk1 ▸ h
        rw [lookupA_cons, lookupA_cons, if_neg h, if_neg hq] at hh
        exact hh
    have hrest := assoc_ext d1 d2 hnd.2 hk2 htl
    calc p :: d1 = (p.1, p.2) :: d1 := rfl
      _ = (q.1, q.2) :: d2 := by rw [hk1, hv, hrest]
      _ = q :: d2 := rfl

/-! ## Field-merging lemmas -/

theorem dedupAppend_nil (acc : List Str) : dedupAppend acc [] = acc := rfl

theorem dedupAppend_cons (acc : List Str) (x : Str) (l : List Str) :
    dedupAppend acc (x :: l) = dedupAppend (if x ∈ acc then acc else acc ++ [x]) l := rfl

theorem mem_dedupAppend (acc l : List Str) (a : Str) :
    a ∈ dedupAppend acc l ↔ a ∈ acc ∨ a ∈ l := by
  induction l generalizing acc with
  | nil => simp [dedupAppend_nil]
  | cons x l ih =>
    rw [dedupAppend_cons, ih]
    by_cases hx : x ∈ acc
    · rw [if_pos hx]
      constructor
      · rintro (h | h)
        · exact Or.inl h
        · exact Or.inr (List.mem_cons_of_mem _ h)
      · rintro (h | h)
        · exact Or.inl h
        · rcases List.mem_cons.mp h with rfl | h
          · exact Or.inl hx
          · exact Or.inr h
    · rw [if_neg hx]
      simp only [List.mem_append, List.mem_singleton, List.mem_cons]
      tauto

theorem dedupAppend_absorb (acc l : List Str) (h : ∀ x ∈ l, x ∈ acc) :
    dedupAppend acc l = acc := by
  induction l with
  | nil => rfl
  | cons x l ih =>
    rw [dedupAppend_cons, if_pos (h x (List.mem_cons_self _ _))]
    exact ih (fun y hy => h y (List.mem_cons_of_mem _ hy))

theorem nodup_dedupAppend (acc l : List Str) (h : acc.Nodup) :
    (dedupAppend acc l).Nodup := by
  induction l generalizing acc with
  | nil => exact h
  | cons x l ih =>
    rw [dedupAppend_cons]
    by_cases hx : x ∈ acc
    · rw [if_pos hx]; exact ih acc h
    · rw [if_neg hx]
      exact ih _ (h.append (List.nodup_singleton x)
        (fun a ha hb => hx ((List.mem_singleton.mp hb) ▸ ha)))

theorem dedupAppend_eq_append_filter (acc : List Str) (l : List Str) (h : l.Nodup) :
    dedupAppend acc l = acc ++ l.filter (fun x => decide (x ∉ acc)) := by
  induction l generalizing acc with
  | nil => simp [dedupAppend_nil]
  | cons x l ih =>
    rw [List.nodup_cons] at h
    rw [dedupAppend_cons]
    by_cases hx : x ∈ acc
    · rw [if_pos hx, ih acc h.2, List.filter_cons_of_neg (by simpa using hx)]
    · rw [if_neg hx, ih _ h.2, List.filter_cons_of_pos (by simpa using hx),
        List.append_assoc, List.singleton_append]
      congr 1
      congr 1
      apply List.filter_congr
      intro a ha
      simp only [decide_eq_decide, List.mem_append, List.mem_singleton]
      constructor
      · intro hq hin
        exact hq (Or.inl hin)
      · rintro hq (hin | rfl)
        · exact hq hin
        · exact h.1 ha

theorem dedupAppend_nil_left_of_nodup (l : List Str) (h : l.Nodup) :
    dedupAppend [] l = l := by
  rw [dedupAppend_eq_append_filter _ _ h, List.nil_append]
  apply List.filter_eq_self.mpr
  intro a _
  simp

/-- Normal form of `merge_fieldnames`: the identifier column followed by
the first-seen deduplication of both inputs, `player_id` removed. -/
theorem merge_fieldnames_eq (A B : List Str) :
    merge_fieldnames A B =
      pidS :: (dedupAppend (dedupAppend [] A) B).filter (fun f => ¬ f = pidS) := by
  unfold merge_fieldnames
  by_cases h : pidS ∈ dedupAppend (dedupAppend [] A) B
  · rw [if_pos h]
  · rw [if_neg h]
    congr 1
    refine (List.filter_eq_self.mpr ?_).symm
    intro a ha
    have hne : ¬ a = pidS := fun hpa => h (hpa ▸ ha)
    simpa using hne

theorem mem_merge_fieldnames (A B : List Str) (c : Str) :
    c ∈ merge_fieldnames A B ↔ c = pidS ∨ c ∈ A ∨ c ∈ B := by
  rw [merge_fieldnames_eq, List.mem_cons, List.mem_filter]
  rw [mem_dedupAppend, mem_dedupAppend]
  simp only [List.not_mem_nil, false_or, decide_eq_true_eq]
  by_cases hc : c = pidS
  · simp [hc]
  · simp [hc]

theorem nodup_merge_fieldnames (A B : List Str) : (merge_fieldnames A B).Nodup := by
  rw [merge_fieldnames_eq, List.nodup_cons]
  constructor
  · intro hmem
    have hne : ¬ pidS = pidS := by simpa using (List.mem_filter.mp hmem).2
    exact hne rfl
  · exact (nodup_dedupAppend _ _ (nodup_dedupAppend _ _ List.nodup_nil)).filter _

theorem merge_fieldnames_ne_nil (A B : List Str) : merge_fieldnames A B ≠ [] := by
  rw [merge_fieldnames_eq]
  exact List.cons_ne_nil _ _

/-- A duplicate-free list headed by `player_id` absorbs any column list
it contains under `merge_fieldnames`. -/
theorem merge_fieldnames_absorb_general (R C : List Str)
    (hnd : (pidS :: R).Nodup) (h : ∀ c ∈ C, c ∈ pidS :: R) :
    merge_fieldnames (pidS :: R) C = pidS :: R := by
  have h1 : dedupAppend [] (pidS :: R) = pidS :: R :=
    dedupAppend_nil_left_of_nodup _ hnd
  unfold merge_fieldnames
  rw [h1, dedupAppend_absorb _ _ h,
    if_pos (List.mem_cons_self pidS R),
    List.filter_cons_of_neg (by simp)]
  congr 1
  apply List.filter_eq_self.mpr
  intro a ha
  rw [List.nodup_cons] at hnd
  have hne : ¬ a = pidS := fun hpa => hnd.1 (hpa ▸ ha)
  simpa using hne

/-- Merging a column list that is already contained in a previous merge
result leaves that result unchanged. -/
theorem merge_fieldnames_absorb (A B C : List Str)
    (h : ∀ c ∈ C, c ∈ merge_fieldnames A B) :
    merge_fieldnames (merge_fieldnames A B) C = merge_fieldnames A B := by
  rw [merge_fieldnames_eq A B] at h ⊢
  exact merge_fieldnames_absorb_general _ _
    (merge_fieldnames_eq A B ▸ nodup_merge_fieldnames A B) h

/-- **C8**: `merge_fieldnames` is idempotent in the stated sense:
`merge_fieldnames(merge_fieldnames(A, B), A) = merge_fieldnames(A, B)`
for all column lists `A` and `B`. -/
theorem C8_merge_fieldnames_idempotent (A B : List Str) :
    merge_fieldnames (merge_fieldnames A B) A = merge_fieldnames A B :=
  merge_fieldnames_absorb A B A
    (fun c hc => (mem_merge_fieldnames A B c).mpr (Or.inr (Or.inl hc)))

/-- **C9**: `merge_fieldnames` returns the first-seen-order deduplicated
union of the existing then incoming column lists with `player_id`
pinned first: it equals `player_id` followed by the spec's first-seen
dedup of `existing ++ incoming` minus `player_id`; `player_id` is always
a member and always the head; the result has no duplicate columns; and
its members are exactly `player_id` plus the members of either input. -/
theorem C9_merge_fieldnames_spec (A B : List Str) :
    merge_fieldnames A B =
      pidS :: (specFirstSeenDedup (A ++ B)).filter (fun f => ¬ f = pidS) ∧
    (merge_fieldnames A B).head? = some pidS ∧
    (merge_fieldnames A B).Nodup ∧
    (∀ c, c ∈ merge_fieldnames A B ↔ c = pidS ∨ c ∈ A ∨ c ∈ B) := by
  have hs : specFirstSeenDedup (A ++ B) = dedupAppend (dedupAppend [] A) B := by
    unfold specFirstSeenDedup dedupAppend
    rw [List.foldl_append]
  refine ⟨?_, ?_, nodup_merge_fieldnames A B, mem_merge_fieldnames A B⟩
  · rw [hs, merge_fieldnames_eq]
  · rw [merge_fieldnames_eq]
    rfl

/-! ## Identity resolution (C1) -/

/-- **C1**: `get_or_create_player_id` returns `None` exactly when the
row has no non-empty display name (neither `player` nor `player_name`
yields a non-empty string); when the row's computed key is already in
the mapping it returns the stored identifier and leaves the mapping and
`max_id` unchanged; when the key is unmapped it increments `max_id` by
exactly 1, stores the new key-to-identifier pair, and returns the new
identifier. -/
theorem C1_get_or_create_player_id_spec (row : Row) (mapping : List (Str × Nat))
    (max_id : Nat) :
    ((get_or_create_player_id row mapping max_id).1 = none ↔
      (pyOr (lookupA row (str "player")) (lookupA row (str "player_name")) = none ∨
       pyOr (lookupA row (str "player")) (lookupA row (str "player_name")) = some [])) ∧
    (∀ n, pyOr (lookupA row (str "player")) (lookupA row (str "player_name")) = some n →
      n ≠ [] →
      (∀ pid,
        lookupA mapping
          (make_key n (lookupA row (str "birth_year")) (lookupA row (str "team"))) =
          some pid →
        get_or_create_player_id row mapping max_id = (some pid, mapping, max_id)) ∧
      (lookupA mapping
          (make_key n (lookupA row (str "birth_year")) (lookupA row (str "team"))) =
          none →
        get_or_create_player_id row mapping max_id =
          (some (max_id + 1),
           insertA mapping
             (make_key n (lookupA row (str "birth_year")) (lookupA row (str "team")))
             (max_id + 1),
           max_id + 1))) := by
  constructor
  · cases hname : pyOr (lookupA row (str "player")) (lookupA row (str "player_name")) with
    | none => simp [get_or_create_player_id, hname]
    | some n =>
      by_cases hn : n = []
      · subst hn
        simp [get_or_create_player_id, hname]
      · cases hlook : lookupA mapping
            (make_key n (lookupA row (str "birth_year")) (lookupA row (str "team"))) with
        | none => simp [get_or_create_player_id, hname, hn, hlook]
        | some pid => simp [get_or_create_player_id, hname, hn, hlook]
  · intro n hname hn
    constructor
    · intro pid hlook
      simp [get_or_create_player_id, hname, hn, hlook]
    · intro hlook
      simp [get_or_create_player_id, hname, hn, hlook]

/-- Concrete instances of C1: a fresh name gets the next identifier and
is stored; a known key returns its stored identifier with mapping and
`max_id` untouched; a nameless row resolves to `None`. -/
theorem C1_witness :
    get_or_create_player_id [(str "player", str "Jane")] [] 0 =
      (some 1, [(make_key (str "Jane") none none, 1)], 1) ∧
    get_or_create_player_id [(str "player", str "Jane")]
        [(make_key (str "Jane") none none, 7)] 9 =
      (some 7, [(make_key (str "Jane") none none, 7)], 9) ∧
    (get_or_create_player_id [(str "goals", str "3")] [] 0).1 = none := by
  refine ⟨?_, ?_, ?_⟩
  · have h := ((C1_get_or_create_player_id_spec
        [(str "player", str "Jane")] [] 0).2 (str "Jane")
        (by decide) (by decide)).2 (by decide)
    exact h.trans (by decide)
  · exact ((C1_get_or_create_player_id_spec
        [(str "player", str "Jane")] [(make_key (str "Jane") none none, 7)] 9).2
        (str "Jane") (by decide) (by decide)).1 7 (by decide)
  · exact (C1_get_or_create_player_id_spec
        [(str "goals", str "3")] [] 0).1.mpr (by decide)

/-! ## Loading the master table (C2) -/

theorem loadStep_none (acc : List (Str × Row)) (row : Row)
    (h : lookupA row pidS = none) : loadStep acc row = acc := by
  unfold loadStep
  rw [h]

theorem loadStep_empty (acc : List (Str × Row)) (row : Row)
    (h : lookupA row pidS = some []) : loadStep acc row = acc := by
  unfold loadStep
  simp only [h]
  simp

theorem loadStep_insert (acc : List (Str × Row)) (row : Row) (pid : Str)
    (h : lookupA row pidS = some pid) (hp : ¬ pid = []) :
    loadStep acc row = insertA acc pid row := by
  unfold loadStep
  simp only [h]
  rw [if_neg hp]

theorem mem_insertA {β : Type} (d : List (Str × β)) (k : Str) (v : β)
    (p : Str × β) (h : p ∈ insertA d k v) : p ∈ d ∨ p = (k, v) := by
  induction d with
  | nil => simpa [insertA] using h
  | cons q d ih =>
    by_cases hq : q.1 = k
    · rw [show insertA (q :: d) k v = (k, v) :: d by simp [insertA, hq]] at h
      rcases List.mem_cons.mp h with rfl | h
      · exact Or.inr rfl
      · exact Or.inl (List.mem_cons_of_mem _ h)
    · rw [show insertA (q :: d) k v = q :: insertA d k v by simp [insertA, hq]] at h
      rcases List.mem_cons.mp h with rfl | h
      · exact Or.inl (List.mem_cons_self _ _)
      · rcases ih h with h | h
        · exact Or.inl (List.mem_cons_of_mem _ h)
        · exact Or.inr h

/-- The skip predicate of the `load_database` loop. -/
def keptByLoad (r : Row) : Bool :=
  match lookupA r pidS with
  | none => false
  | some pid => decide (¬ pid = [])

theorem buildDbRows_filter (rows : List Row) :
    buildDbRows rows = buildDbRows (rows.filter keptByLoad) := by
  suffices h : ∀ acc : List (Str × Row),
      rows.foldl loadStep acc = (rows.filter keptByLoad).foldl loadStep acc by
    exact h []
  induction rows with
  | nil => intro acc; rfl
  | cons row rows ih =>
    intro acc
    cases hlook : lookupA row pidS with
    | none =>
      rw [List.filter_cons_of_neg (by simp [keptByLoad, hlook]),
        List.foldl_cons, loadStep_none acc row hlook, ih]
    | some pid =>
      by_cases hpid : pid = []
      · subst hpid
        rw [List.filter_cons_of_neg (by simp [keptByLoad, hlook]),
          List.foldl_cons, loadStep_empty acc row hlook, ih]
      · rw [List.filter_cons_of_pos (by simp [keptByLoad, hlook, hpid]),
          List.foldl_cons, List.foldl_cons, ih]

theorem buildDbRows_entries (rows : List Row) :
    ∀ k r, (k, r) ∈ buildDbRows rows → lookupA r pidS = some k ∧ k ≠ [] := by
  suffices h : ∀ (acc : List (Str × Row)),
      (∀ k r, (k, r) ∈ acc → lookupA r pidS = some k ∧ k ≠ []) →
      ∀ k r, (k, r) ∈ rows.foldl loadStep acc →
        lookupA r pidS = some k ∧ k ≠ [] by
    exact h [] (by intro k r hk; simp at hk)
  induction rows with
  | nil => intro acc hacc; exact hacc
  | cons row rows ih =>
    intro acc hacc
    rw [List.foldl_cons]
    cases hlook : lookupA row pidS with
    | none =>
      rw [loadStep_none acc row hlook]
      exact ih acc hacc
    | some pid =>
      by_cases hpid : pid = []
      · subst hpid
        rw [loadStep_empty acc row hlook]
        exact ih acc hacc
      · rw [loadStep_insert acc row pid hlook hpid]
        refine ih _ ?_
        intro k r hk
        rcases mem_insertA _ _ _ _ hk with hk | hk
        · exact hacc k r hk
        · injection hk with h1 h2
          subst h1; subst h2
          exact ⟨hlook, hpid⟩

/-- **C2 counterexample**: loading a persisted table holding a single
row that lacks an identifier value succeeds (no `MalformedTableError`
exists in the code) and returns an empty row dict — the row was
silently dropped, contradicting the claim. -/
theorem C2_counterexample :
    load_database (some ([str "player_id", str "goals"], [[(str "goals", str "3")]])) =
      ([], [str "player_id", str "goals"]) := by rfl

/-- **C2 (amended)**: loading the persisted master table never fails;
every row whose identifier is missing or empty is silently skipped
(loading is unchanged by removing such rows beforehand), and every
loaded entry carries a non-empty identifier equal to its dict key. -/
theorem C2_load_database_skips_rows_without_identifier (fields : List Str)
    (rows : List Row) :
    load_database (some (fields, rows)) =
      load_database (some (fields, rows.filter keptByLoad)) ∧
    (∀ k r, (k, r) ∈ (load_database (some (fields, rows))).1 →
      lookupA r pidS = some k ∧ k ≠ []) := by
  constructor
  · unfold load_database
    rw [show fileRows (some (fields, rows)) = rows from rfl,
      show fileRows (some (fields, rows.filter keptByLoad)) = rows.filter keptByLoad from rfl,
      ← buildDbRows_filter]
    rfl
  · intro k r hk
    exact buildDbRows_entries rows k r hk

/-- Concrete instance of C2 (amended): a file with one identified and
one unidentified row loads to a dict holding only the former. -/
theorem C2_witness :
    load_database (some ([str "player_id", str "goals"],
        [[(str "player_id", str "1"), (str "goals", str "2")], [(str "goals", str "3")]])) =
      load_database (some ([str "player_id", str "goals"],
        [[(str "player_id", str "1"), (str "goals", str "2")]])) ∧
    lookupA [(str "player_id", str "1"), (str "goals", str "2")] pidS = some (str "1") ∧
    str "1" ≠ [] := by
  have h := C2_load_database_skips_rows_without_identifier
    [str "player_id", str "goals"]
    [[(str "player_id", str "1"), (str "goals", str "2")], [(str "goals", str "3")]]
  refine ⟨h.1.trans (by rfl), ?_, ?_⟩
  · exact (h.2 (str "1") [(str "player_id", str "1"), (str "goals", str "2")]
      (by decide)).1
  · exact (h.2 (str "1") [(str "player_id", str "1"), (str "goals", str "2")]
      (by decide)).2

/-! ## Output ordering (C7) -/

/-- **C7**: at the concrete input where the persisted table holds the
numeric identifier `"1"` and the batch brings the non-numeric
identifier `"abc"`, `update_database` aborts with the `TypeError` of
`sorted` (Python 3 cannot compare the `int` key `1` with the `str` key
`"abc"`), instead of ordering the rows as the claim states. -/
theorem C7_mixed_identifier_sort_raises :
    update_database (some ([str "player_id"], [[(str "player_id", str "1")]]))
      [[(str "player_id", str "abc")]] [str "player_id"] =
      Except.error DbError.typeError := by rfl

/-! ## Normalization lemmas (C10) -/

theorem lowerChar_idem (c : Char) : lowerChar (lowerChar c) = lowerChar c := by
  unfold lowerChar
  by_cases h : 65 ≤ c.toNat ∧ c.toNat ≤ 90
  · rw [if_pos h]
    have hv : (Char.ofNat (c.toNat + 32)).toNat = c.toNat + 32 := by
      unfold Char.ofNat
      rw [dif_pos (Or.inl (by omega))]
      rfl
    rw [if_neg (by rw [hv]; omega)]
  · rw [if_neg h, if_neg h]

theorem lowerChar_space : lowerChar ' ' = ' ' := by decide

theorem mem_pyLower_fixed (s : Str) (c : Char) (h : c ∈ pyLower s) :
    lowerChar c = c := by
  obtain ⟨x, _, rfl⟩ := List.mem_map.mp h
  exact lowerChar_idem x

/-- Every chunk produced by the split worker is a nonempty,
whitespace-free word made of input (or accumulator) characters. -/
theorem pySplitAux_tokens (l : Str) :
    ∀ (acc : Str), (∀ c ∈ acc, isWs c = false) →
      ∀ t ∈ pySplitAux l acc,
        t ≠ [] ∧ ∀ c ∈ t, isWs c = false ∧ (c ∈ l ∨ c ∈ acc) := by
  induction l with
  | nil =>
    intro acc hacc t ht
    by_cases h : acc = []
    · simp [pySplitAux, h] at ht
    · rw [show pySplitAux [] acc = [acc.reverse] by simp [pySplitAux, h]] at ht
      rcases List.mem_singleton.mp ht with rfl
      refine ⟨by simpa using h, ?_⟩
      intro c hc
      exact ⟨hacc c (List.mem_reverse.mp hc), Or.inr (List.mem_reverse.mp hc)⟩
  | cons x l ih =>
    intro acc hacc t ht
    by_cases hx : isWs x = true
    · by_cases h : acc = []
      · rw [show pySplitAux (x :: l) acc = pySplitAux l [] by
            simp [pySplitAux, hx, h]] at ht
        obtain ⟨h1, h2⟩ := ih [] (by intro c hc; simp at hc) t ht
        refine ⟨h1, fun c hc => ⟨(h2 c hc).1, ?_⟩⟩
        rcases (h2 c hc).2 with hcl | hcl
        · exact Or.inl (List.mem_cons_of_mem _ hcl)
        · simp at hcl
      · rw [show pySplitAux (x :: l) acc = acc.reverse :: pySplitAux l [] by
            simp [pySplitAux, hx, h]] at ht
        rcases List.mem_cons.mp ht with rfl | ht
        · refine ⟨by simpa using h, ?_⟩
          intro c hc
          exact ⟨hacc c (List.mem_reverse.mp hc), Or.inr (List.mem_reverse.mp hc)⟩
        · obtain ⟨h1, h2⟩ := ih [] (by intro c hc; simp at hc) t ht
          refine ⟨h1, fun c hc => ⟨(h2 c hc).1, ?_⟩⟩
          rcases (h2 c hc).2 with hcl | hcl
          · exact Or.inl (List.mem_cons_of_mem _ hcl)
          · simp at hcl
    · rw [show pySplitAux (x :: l) acc = pySplitAux l (x :: acc) by
          simp [pySplitAux, hx]] at ht
      have hacc2 : ∀ c ∈ x :: acc, isWs c = false := by
        intro c hc
        rcases List.mem_cons.mp hc with rfl | hc
        · simpa using hx
        · exact hacc c hc
      obtain ⟨h1, h2⟩ := ih (x :: acc) hacc2 t ht
      refine ⟨h1, fun c hc => ⟨(h2 c hc).1, ?_⟩⟩
      rcases (h2 c hc).2 with hcl | hcl
      · exact Or.inl (List.mem_cons_of_mem _ hcl)
      · rcases List.mem_cons.mp hcl with rfl | hcl
        · exact Or.inl (List.mem_cons_self _ _)
        · exact Or.inr hcl

theorem pySplit_tokens (s : Str) :
    ∀ t ∈ pySplit s, t ≠ [] ∧ ∀ c ∈ t, isWs c = false ∧ c ∈ s := by
  intro t ht
  obtain ⟨h1, h2⟩ := pySplitAux_tokens s [] (by intro c hc; simp at hc) t ht
  refine ⟨h1, fun c hc => ⟨(h2 c hc).1, ?_⟩⟩
  rcases (h2 c hc).2 with h | h
  · exact h
  · simp at h

theorem pySplitAux_all_nonws (w : Str) (h : ∀ c ∈ w, isWs c = false) :
    ∀ acc, pySplitAux w acc =
      if acc = [] ∧ w = [] then [] else [acc.reverse ++ w] := by
  induction w with
  | nil =>
    intro acc
    by_cases ha : acc = [] <;> simp [pySplitAux, ha]
  | cons c w ih =>
    intro acc
    have hc : isWs c = false := h c (List.mem_cons_self _ _)
    rw [show pySplitAux (c :: w) acc = pySplitAux w (c :: acc) by
        simp [pySplitAux, hc]]
    rw [ih (fun x hx => h x (List.mem_cons_of_mem _ hx)) (c :: acc)]
    simp

theorem pySplitAux_word_front (w : Str) (h : ∀ c ∈ w, isWs c = false) (rest : Str) :
    ∀ acc, pySplitAux (w ++ rest) acc = pySplitAux rest (w.reverse ++ acc) := by
  induction w with
  | nil => intro acc; simp
  | cons c w ih =>
    intro acc
    have hc : isWs c = false := h c (List.mem_cons_self _ _)
    rw [List.cons_append,
      show pySplitAux (c :: (w ++ rest)) acc = pySplitAux (w ++ rest) (c :: acc) by
        simp [pySplitAux, hc],
      ih (fun x hx => h x (List.mem_cons_of_mem _ hx)) (c :: acc)]
    simp

theorem pySplitAux_space (r : Str) (acc : Str) :
    pySplitAux (' ' :: r) acc =
      if acc = [] then pySplitAux r [] else acc.reverse :: pySplitAux r [] := by
  by_cases h : acc = [] <;> simp [pySplitAux, isWs, h]

theorem joinWords_ne_nil (w : Str) (ws : List Str) (hw : w ≠ []) :
    joinWords (w :: ws) ≠ [] := by
  cases ws with
  | nil => simpa [joinWords] using hw
  | cons v ws =>
    rw [show joinWords (w :: v :: ws) = w ++ ' ' :: joinWords (v :: ws) from rfl]
    cases w with
    | nil => exact absurd rfl hw
    | cons c w => simp

theorem pySplit_joinWords (ws : List Str)
    (h : ∀ t ∈ ws, t ≠ [] ∧ ∀ c ∈ t, isWs c = false) :
    pySplit (joinWords ws) = ws := by
  induction ws with
  | nil => rfl
  | cons w ws ih =>
    cases ws with
    | nil =>
      obtain ⟨hw, hwc⟩ := h w (List.mem_cons_self _ _)
      show pySplitAux w [] = [w]
      rw [pySplitAux_all_nonws w hwc []]
      simp [hw]
    | cons v ws2 =>
      obtain ⟨hw, hwc⟩ := h w (List.mem_cons_self _ _)
      show pySplitAux (w ++ ' ' :: joinWords (v :: ws2)) [] = w :: v :: ws2
      rw [pySplitAux_word_front w hwc _ [], List.append_nil, pySplitAux_space]
      rw [if_neg (by simpa using hw), List.reverse_reverse]
      have := ih (fun t ht => h t (List.mem_cons_of_mem _ ht))
      rw [show pySplitAux (joinWords (v :: ws2)) [] = pySplit (joinWords (v :: ws2)) from rfl,
        this]

theorem joinWords_head (w : Str) (ws : List Str) (hw : w ≠ []) :
    ∃ a l, joinWords (w :: ws) = a :: l ∧ a ∈ w := by
  cases w with
  | nil => exact absurd rfl hw
  | cons c w2 =>
    cases ws with
    | nil => exact ⟨c, w2, rfl, List.mem_cons_self _ _⟩
    | cons v ws2 =>
      exact ⟨c, w2 ++ ' ' :: joinWords (v :: ws2), rfl, List.mem_cons_self _ _⟩

theorem joinWords_last (ws : List Str) (hne : ws ≠ [])
    (h : ∀ t ∈ ws, t ≠ []) :
    ∃ r b, joinWords ws = r ++ [b] ∧ ∃ t ∈ ws, b ∈ t := by
  induction ws with
  | nil => exact absurd rfl hne
  | cons w ws ih =>
    cases ws with
    | nil =>
      have hw : w ≠ [] := h w (List.mem_cons_self _ _)
      refine ⟨w.dropLast, w.getLast hw, ?_, w, List.mem_cons_self _ _,
        List.getLast_mem hw⟩
      show w = _
      rw [List.dropLast_append_getLast hw]
    | cons v ws2 =>
      obtain ⟨r, b, hr, t, ht, hb⟩ :=
        ih (List.cons_ne_nil _ _) (fun t ht => h t (List.mem_cons_of_mem _ ht))
      refine ⟨w ++ ' ' :: r, b, ?_, t, List.mem_cons_of_mem _ ht, hb⟩
      show w ++ ' ' :: joinWords (v :: ws2) = _
      rw [hr, List.append_assoc, List.cons_append]

theorem dropWhile_cons_false (c : Char) (t : Str) (h : isWs c = false) :
    (c :: t).dropWhile isWs = c :: t := by
  simp [List.dropWhile_cons, h]

theorem pyStrip_joinWords (ws : List Str)
    (h : ∀ t ∈ ws, t ≠ [] ∧ ∀ c ∈ t, isWs c = false) :
    pyStrip (joinWords ws) = joinWords ws := by
  cases ws with
  | nil => rfl
  | cons w ws =>
    obtain ⟨a, l, hhead, ha⟩ := joinWords_head w ws (h w (List.mem_cons_self _ _)).1
    obtain ⟨r, b, hlast, t, ht, hb⟩ :=
      joinWords_last (w :: ws) (List.cons_ne_nil _ _) (fun t ht => (h t ht).1)
    have hna : isWs a = false := ((h w (List.mem_cons_self _ _)).2 a ha)
    have hnb : isWs b = false := ((h t ht).2 b hb)
    unfold pyStrip
    rw [hhead, dropWhile_cons_false a l hna, ← hhead, hlast]
    rw [List.reverse_append, List.reverse_singleton, List.singleton_append]
    rw [dropWhile_cons_false b r.reverse hnb]
    rw [← List.singleton_append, ← List.reverse_singleton, ← List.reverse_append]
    rw [List.reverse_reverse]
    simp

theorem pyLower_fixed (l : Str) (h : ∀ c ∈ l, lowerChar c = c) : pyLower l = l := by
  induction l with
  | nil => rfl
  | cons c l ih =>
    show lowerChar c :: pyLower l = c :: l
    rw [h c (List.mem_cons_self _ _), ih (fun x hx => h x (List.mem_cons_of_mem _ hx))]

theorem pyLower_joinWords_fixed (ws : List Str)
    (h : ∀ t ∈ ws, ∀ c ∈ t, lowerChar c = c) :
    pyLower (joinWords ws) = joinWords ws := by
  induction ws with
  | nil => rfl
  | cons w ws ih =>
    cases ws with
    | nil => exact pyLower_fixed w (h w (List.mem_cons_self _ _))
    | cons v ws2 =>
      show pyLower (w ++ ' ' :: joinWords (v :: ws2)) = w ++ ' ' :: joinWords (v :: ws2)
      unfold pyLower
      rw [List.map_append, List.map_cons]
      rw [show List.map lowerChar w = w from pyLower_fixed w (h w (List.mem_cons_self _ _))]
      rw [lowerChar_space]
      rw [show List.map lowerChar (joinWords (v :: ws2)) = joinWords (v :: ws2) from
        ih (fun t ht => h t (List.mem_cons_of_mem _ ht))]

/-- `normalize` is idempotent. -/
theorem normalize_idem (s : Str) : normalize (normalize s) = normalize s := by
  by_cases hs : s = []
  · subst hs; rfl
  · have hdef : normalize s = joinWords (pySplit (pyLower (pyStrip s))) := by
      unfold normalize; rw [if_neg hs]
    have htok : ∀ t ∈ pySplit (pyLower (pyStrip s)),
        t ≠ [] ∧ ∀ c ∈ t, isWs c = false := by
      intro t ht
      obtain ⟨h1, h2⟩ := pySplit_tokens (pyLower (pyStrip s)) t ht
      exact ⟨h1, fun c hc => (h2 c hc).1⟩
    have hlow : ∀ t ∈ pySplit (pyLower (pyStrip s)), ∀ c ∈ t, lowerChar c = c := by
      intro t ht c hc
      exact mem_pyLower_fixed (pyStrip s) c
        ((pySplit_tokens (pyLower (pyStrip s)) t ht).2 c hc).2
    by_cases hcase : pySplit (pyLower (pyStrip s)) = []
    · rw [hdef, hcase]
      rfl
    · obtain ⟨w, ws2, hws⟩ := List.exists_cons_of_ne_nil hcase
      have hne : joinWords (pySplit (pyLower (pyStrip s))) ≠ [] := by
        rw [hws]
        exact joinWords_ne_nil w ws2 (htok w (hws ▸ List.mem_cons_self _ _)).1
      rw [hdef]
      rw [show normalize (joinWords (pySplit (pyLower (pyStrip s)))) =
          joinWords (pySplit (pyLower (pyStrip
            (joinWords (pySplit (pyLower (pyStrip s))))))) by
        unfold normalize; rw [if_neg hne]]
      rw [pyStrip_joinWords _ htok, pyLower_joinWords_fixed _ hlow,
        pySplit_joinWords _ htok]

/-- **C10**: `normalize` is idempotent: `normalize(normalize(s)) =
normalize(s)` for every string, so re-normalizing an already-normalized
name or team field leaves it unchanged. -/
theorem C10_normalize_idempotent (s : Str) :
    normalize (normalize s) = normalize s :=
  normalize_idem s

/-! ## Identity-index round-trip (C6) -/

theorem dropWhile_isWs_shape (l : Str) :
    l.dropWhile isWs = [] ∨
      ∃ c t, l.dropWhile isWs = c :: t ∧ isWs c = false := by
  induction l with
  | nil => exact Or.inl rfl
  | cons c l ih =>
    by_cases hc : isWs c = true
    · rw [List.dropWhile_cons, if_pos hc]
      exact ih
    · rw [dropWhile_cons_false c l (by simpa using hc)]
      exact Or.inr ⟨c, l, rfl, by simpa using hc⟩

theorem dropWhile_eq_append (l : Str) :
    ∃ pre, l = pre ++ l.dropWhile isWs := by
  induction l with
  | nil => exact ⟨[], rfl⟩
  | cons c l ih =>
    by_cases hc : isWs c = true
    · obtain ⟨pre, hpre⟩ := ih
      rw [List.dropWhile_cons, if_pos hc]
      exact ⟨c :: pre, by rw [List.cons_append, ← hpre]⟩
    · rw [dropWhile_cons_false c l (by simpa using hc)]
      exact ⟨[], rfl⟩

/-- A string with non-whitespace first and last characters is fixed by
`s.strip()`. -/
theorem pyStrip_of_ends (l : Str) (c : Char) (t : Str) (e : Char) (v : Str)
    (h1 : l = c :: t) (hc : isWs c = false)
    (h2 : l.reverse = e :: v) (he : isWs e = false) : pyStrip l = l := by
  unfold pyStrip
  rw [h1, dropWhile_cons_false c t hc, ← h1, h2, dropWhile_cons_false e v he, ← h2,
    List.reverse_reverse]

/-- `s.strip()` is idempotent. -/
theorem pyStrip_idem (s : Str) : pyStrip (pyStrip s) = pyStrip s := by
  have hps : pyStrip s = ((s.dropWhile isWs).reverse.dropWhile isWs).reverse := rfl
  rcases dropWhile_isWs_shape ((s.dropWhile isWs).reverse) with hb | ⟨c, t, hb, hc⟩
  · have hnil : pyStrip s = [] := by rw [hps, hb]; rfl
    rw [hnil]
    rfl
  · rcases dropWhile_isWs_shape s with ha | ⟨d, u, ha, hd⟩
    · rw [ha] at hb
      simp at hb
    · obtain ⟨pre, hpre⟩ := dropWhile_eq_append ((s.dropWhile isWs).reverse)
      have hbrev_ne : pyStrip s ≠ [] := by
        rw [hps, hb]
        simp
      obtain ⟨e, v, hev⟩ := List.exists_cons_of_ne_nil hbrev_ne
      have he : isWs e = false := by
        have haeq := congrArg List.reverse hpre
        rw [List.reverse_reverse, List.reverse_append] at haeq
        rw [← hps, hev, ha, List.cons_append] at haeq
        injection haeq with h1 _
        exact h1 ▸ hd
      have hrev : (pyStrip s).reverse = c :: t := by
        rw [hps, List.reverse_reverse, hb]
      exact pyStrip_of_ends (pyStrip s) e v c t hev he hrev hc

theorem splitOnce_append (a r : Str) (h : '|' ∉ a) :
    splitOnce '|' (a ++ '|' :: r) = some (a, r) := by
  induction a with
  | nil => simp [splitOnce]
  | cons d a2 ih =>
    rw [List.mem_cons] at h
    push_neg at h
    rw [List.cons_append]
    show (if d = '|' then some ([], a2 ++ '|' :: r)
      else (splitOnce '|' (a2 ++ '|' :: r)).map (fun p => (d :: p.1, p.2))) = _
    rw [if_neg (fun hh => h.1 hh.symm), ih h.2]
    rfl

/-- `make_key` in explicitly right-nested form. -/
theorem make_key_eq (name : Str) (y t : Option Str) :
    make_key name y t =
      normalize name ++ '|' :: (pyStrip (y.getD []) ++ '|' :: normalize (t.getD [])) := by
  rw [make_key, List.append_assoc, List.cons_append]

theorem split2bar_parts (n y t : Str) (hn : '|' ∉ n) (hy : '|' ∉ y) :
    split2bar (n ++ '|' :: (y ++ '|' :: t)) = some (n, y, t) := by
  unfold split2bar
  rw [splitOnce_append n _ hn]
  show (match splitOnce '|' (y ++ '|' :: t) with
    | none => none
    | some (b, t2) => some (n, b, t2)) = some (n, y, t)
  rw [splitOnce_append y t hy]

theorem mapO_mem {α β : Type} (f : α → Option β) :
    ∀ (l : List α) (out : List β), mapO f l = some out →
      ∀ b ∈ out, ∃ a ∈ l, f a = some b := by
  intro l
  induction l with
  | nil =>
    intro out h b hb
    injection h with h
    subst h
    simp at hb
  | cons a l ih =>
    intro out h b hb
    unfold mapO at h
    cases hfa : f a with
    | none => rw [hfa] at h; exact absurd h (by simp)
    | some b0 =>
      cases hml : mapO f l with
      | none => rw [hfa, hml] at h; exact absurd h (by simp)
      | some bs =>
        rw [hfa, hml] at h
        injection h with h
        subst h
        rcases List.mem_cons.mp hb with rfl | hb
        · exact ⟨a, List.mem_cons_self _ _, hfa⟩
        · obtain ⟨a2, ha2, hf2⟩ := ih bs hml b hb
          exact ⟨a2, List.mem_cons_of_mem _ ha2, hf2⟩

/-- **C6 counterexample**: the mapping whose sole key was produced by
`make_key("a |b", "1990", "t")` (keys produced by `make_key`, as the
claim requires) is saved as a record whose decomposed columns are
`("a ", "b", "1990|t")`, and `make_key` applied to those stored columns
yields `"a|b|1990|t"`, not the stored key `"a |b|1990|t"`. -/
theorem C6_counterexample :
    make_key (str "a |b") (some (str "1990")) (some (str "t")) = str "a |b|1990|t" ∧
    save_index [(make_key (str "a |b") (some (str "1990")) (some (str "t")), 1)] =
      some [{ player_id := 1, key := str "a |b|1990|t", norm_name := str "a ",
              birth_year := str "b", norm_team := str "1990|t" }] ∧
    make_key (str "a ") (some (str "b")) (some (str "1990|t")) ≠ str "a |b|1990|t" := by
  refine ⟨by decide, by decide, by decide⟩

/-- **C6 (amended)**: for every record written by `save_index`, applying
`make_key` to the record's three stored decomposed columns reproduces
the record's stored key, provided each mapping key was produced by
`make_key` from a name whose normalization is free of the `"|"`
delimiter and a birth year whose stripped text is free of it.  (The
counterexample shows the unconditional claim fails when a name contains
`"|"`.) -/
theorem C6_save_index_roundtrip (mapping : List (Str × Nat))
    (hkeys : ∀ q ∈ mapping, ∃ n y t, q.1 = make_key n y t ∧
      '|' ∉ normalize n ∧ '|' ∉ pyStrip (y.getD [])) :
    ∀ recs, save_index mapping = some recs →
      ∀ r ∈ recs,
        make_key r.norm_name (some r.birth_year) (some r.norm_team) = r.key := by
  intro recs hrecs r hr
  simp only [save_index] at hrecs
  obtain ⟨p, hp, hfp⟩ := mapO_mem _ _ _ hrecs r hr
  have hpmem : p ∈ mapping := (List.perm_insertionSort _ mapping).mem_iff.mp hp
  obtain ⟨n, y, t, hk, hn, hy⟩ := hkeys p hpmem
  rw [hk, make_key_eq, split2bar_parts _ _ _ hn hy, Option.map_some'] at hfp
  injection hfp with hfp
  subst hfp
  show make_key (normalize n) (some (pyStrip (y.getD []))) (some (normalize (t.getD []))) =
    normalize n ++ '|' :: (pyStrip (y.getD []) ++ '|' :: normalize (t.getD []))
  rw [make_key_eq]
  rw [show (some (pyStrip (y.getD []))).getD [] = pyStrip (y.getD []) from rfl,
    show (some (normalize (t.getD []))).getD [] = normalize (t.getD []) from rfl,
    normalize_idem, pyStrip_idem, normalize_idem]

/-- Concrete instance of C6 (amended): a well-behaved key (no `"|"` in
name or birth year) round-trips exactly through `save_index`. -/
theorem C6_witness :
    make_key (str "jane") (some (str "1995")) (some (str "red fc")) =
      str "jane|1995|red fc" := by
  have h := C6_save_index_roundtrip
    [(make_key (str "jane") (some (str "1995")) (some (str "red fc")), 3)]
    (by
      intro q hq
      rcases List.mem_singleton.mp hq with rfl
      exact ⟨str "jane", some (str "1995"), some (str "red fc"), rfl,
        by decide, by decide⟩)
    [{ player_id := 3, key := str "jane|1995|red fc", norm_name := str "jane",
       birth_year := str "1995", norm_team := str "red fc" }]
    (by decide)
    { player_id := 3, key := str "jane|1995|red fc", norm_name := str "jane",
      birth_year := str "1995", norm_team := str "red fc" }
    (by decide)
  exact h

example : normalize (str "  Jane   DOE ") = str "jane doe" := by decide


example :
    make_key (str "Jane Doe") (some (str "1995")) (some (str "Red FC")) =
      make_key (str "  jane   doe ") (some (str "1995")) (some (str "red fc")) := by decide

example :
    (get_or_create_player_id [(str "player", str "A. Smith"), (str "team", str "FC X")] [] 0).1 =
      some 1 := by decide

/-! ## Dict-update and backfill lemmas -/

theorem lookupA_foldl_insertA {β : Type} (P : List (Str × β)) :
    ∀ (d : List (Str × β)) (k : Str),
      lookupA (P.foldl (fun d p => insertA d p.1 p.2) d) k =
        firstSome (lookupA P.reverse k) (lookupA d k) := by
  induction P with
  | nil => intro d k; rfl
  | cons p P ih =>
    intro d k
    rw [List.foldl_cons, ih (insertA d p.1 p.2) k, List.reverse_cons, lookupA_append]
    cases hrev : lookupA P.reverse k with
    | some v => rfl
    | none =>
      show lookupA (insertA d p.1 p.2) k = firstSome (lookupA [p] k) (lookupA d k)
      unfold firstSome
      rw [lookupA_insertA, lookupA_cons, lookupA_nil]
      by_cases h : p.1 = k
      · rw [if_pos h, if_pos h]
      · rw [if_neg h, if_neg h]

theorem lookupA_dictUpdate (d r : Row) (k : Str) :
    lookupA (dictUpdate d r) k =
      firstSome (lookupA r.reverse k) (lookupA d k) := by
  unfold dictUpdate
  exact lookupA_foldl_insertA r d k

theorem lookupA_reverse_of_nodup {β : Type} :
    ∀ (r : List (Str × β)), (keysOf r).Nodup →
      ∀ k, lookupA r.reverse k = lookupA r k := by
  intro r
  induction r with
  | nil => intro _ k; rfl
  | cons p r ih =>
    intro h k
    rw [keysOf_cons, List.nodup_cons] at h
    rw [List.reverse_cons, lookupA_append]
    by_cases hp : p.1 = k
    · have hnone : lookupA r.reverse k = none := by
        rw [ih h.2, (lookupA_eq_none_iff r k).mpr (fun hm => h.1 (hp ▸ hm))]
      rw [hnone]
      show lookupA [p] k = lookupA (p :: r) k
      rw [lookupA_cons, lookupA_cons, if_pos hp, if_pos hp]
    · rw [ih h.2]
      cases hc : lookupA r k with
      | some v =>
        show some v = lookupA (p :: r) k
        rw [lookupA_cons, if_neg hp, hc]
      | none =>
        show lookupA [p] k = lookupA (p :: r) k
        rw [lookupA_cons, lookupA_cons, if_neg hp, if_neg hp, lookupA_nil, hc]

theorem keysOf_foldl_insertA {β : Type} (P : List (Str × β)) :
    ∀ d : List (Str × β),
      keysOf (P.foldl (fun d p => insertA d p.1 p.2) d) =
        dedupAppend (keysOf d) (keysOf P) := by
  induction P with
  | nil => intro d; rfl
  | cons p P ih =>
    intro d
    rw [List.foldl_cons, ih, keysOf_cons, dedupAppend_cons, keysOf_insertA]

theorem keysOf_dictUpdate (d r : Row) :
    keysOf (dictUpdate d r) = dedupAppend (keysOf d) (keysOf r) :=
  keysOf_foldl_insertA r d

theorem nodup_keysOf_dictUpdate (d r : Row) (h : (keysOf d).Nodup) :
    (keysOf (dictUpdate d r)).Nodup := by
  rw [keysOf_dictUpdate]
  exact nodup_dedupAppend _ _ h

theorem backfillRow_nil (r : Row) : backfillRow [] r = r := rfl

theorem backfillRow_cons (f : Str) (F : List Str) (r : Row) :
    backfillRow (f :: F) r =
      backfillRow F (if (lookupA r f).isSome then r else r ++ [(f, [])]) := rfl

theorem lookupA_backfillRow_some (F : List Str) :
    ∀ (r : Row) (k v : Str), lookupA r k = some v →
      lookupA (backfillRow F r) k = some v := by
  induction F with
  | nil => intro r k v h; exact h
  | cons f F ih =>
    intro r k v h
    rw [backfillRow_cons]
    by_cases hf : (lookupA r f).isSome
    · rw [if_pos hf]; exact ih r k v h
    · rw [if_neg hf]
      refine ih _ k v ?_
      rw [lookupA_append, h]
      rfl

theorem mem_keysOf_backfillRow_left (F : List Str) :
    ∀ (r : Row) (q : Str), q ∈ keysOf r → q ∈ keysOf (backfillRow F r) := by
  induction F with
  | nil => intro r q h; exact h
  | cons f F ih =>
    intro r q h
    rw [backfillRow_cons]
    by_cases hf : (lookupA r f).isSome
    · rw [if_pos hf]; exact ih r q h
    · rw [if_neg hf]
      exact ih _ q (by rw [keysOf_append]; exact List.mem_append_left _ h)

theorem mem_keysOf_backfillRow_field (F : List Str) :
    ∀ (r : Row) (f : Str), f ∈ F → f ∈ keysOf (backfillRow F r) := by
  induction F with
  | nil => intro r f h; exact absurd h (List.not_mem_nil f)
  | cons g F ih =>
    intro r f hf
    rw [backfillRow_cons]
    rcases List.mem_cons.mp hf with rfl | hf
    · by_cases hg : (lookupA r f).isSome
      · rw [if_pos hg]
        exact mem_keysOf_backfillRow_left F r f ((lookupA_isSome_iff r f).mp hg)
      · rw [if_neg hg]
        exact mem_keysOf_backfillRow_left F _ f
          (by rw [keysOf_append]
              exact List.mem_append_right _ (List.mem_singleton.mpr rfl))
    · by_cases hg : (lookupA r g).isSome
      · rw [if_pos hg]; exact ih r f hf
      · rw [if_neg hg]; exact ih _ f hf

theorem nodup_keysOf_backfillRow (F : List Str) :
    ∀ r : Row, (keysOf r).Nodup → (keysOf (backfillRow F r)).Nodup := by
  induction F with
  | nil => intro r h; exact h
  | cons f F ih =>
    intro r h
    rw [backfillRow_cons]
    by_cases hf : (lookupA r f).isSome
    · rw [if_pos hf]; exact ih r h
    · rw [if_neg hf]
      refine ih _ ?_
      rw [keysOf_append]
      have hnm : f ∉ keysOf r := by
        rw [← lookupA_eq_none_iff]
        cases hc : lookupA r f with
        | none => rfl
        | some v => rw [hc] at hf; exact absurd rfl hf
      refine h.append (List.nodup_singleton f) ?_
      intro a ha hb
      have haf : a = f := by simpa [keysOf] using hb
      exact hnm (haf ▸ ha)

theorem backfillRow_eq_self (F : List Str) :
    ∀ r : Row, (∀ f ∈ F, f ∈ keysOf r) → backfillRow F r = r := by
  induction F with
  | nil => intro r _; rfl
  | cons f F ih =>
    intro r h
    rw [backfillRow_cons,
      if_pos ((lookupA_isSome_iff r f).mpr (h f (List.mem_cons_self _ _)))]
    exact ih r (fun g hg => h g (List.mem_cons_of_mem _ hg))

theorem foldl_dictUpdate_join (S : List Row) :
    ∀ b : Row, S.foldl dictUpdate b =
      (S.flatten).foldl (fun d p => insertA d p.1 p.2) b := by
  induction S with
  | nil => intro b; rfl
  | cons r S ih =>
    intro b
    rw [List.foldl_cons, ih, List.flatten_cons, List.foldl_append]
    rfl

theorem lookup_foldl_dictUpdate (S : List Row) (b : Row) (k : Str) :
    lookupA (S.foldl dictUpdate b) k =
      firstSome (lookupA (S.flatten).reverse k) (lookupA b k) := by
  rw [foldl_dictUpdate_join]
  exact lookupA_foldl_insertA _ b k

theorem keys_foldl_dictUpdate (S : List Row) (b : Row) :
    keysOf (S.foldl dictUpdate b) = dedupAppend (keysOf b) (keysOf S.flatten) := by
  rw [foldl_dictUpdate_join]
  exact keysOf_foldl_insertA _ b

/-- Re-applying a sequence of dict updates to the backfilled result of
those same updates changes nothing. -/
theorem applyB_backfill_absorb (S : List Row) (F : List Str) (b : Row)
    (hndb : (keysOf b).Nodup) :
    S.foldl dictUpdate (backfillRow F (S.foldl dictUpdate b)) =
      backfillRow F (S.foldl dictUpdate b) := by
  have hkX : keysOf (S.foldl dictUpdate b) = dedupAppend (keysOf b) (keysOf S.flatten) :=
    keys_foldl_dictUpdate S b
  have hndX : (keysOf (S.foldl dictUpdate b)).Nodup := by
    rw [hkX]; exact nodup_dedupAppend _ _ hndb
  have hndY : (keysOf (backfillRow F (S.foldl dictUpdate b))).Nodup :=
    nodup_keysOf_backfillRow F _ hndX
  have hkeys : keysOf (S.foldl dictUpdate (backfillRow F (S.foldl dictUpdate b))) =
      keysOf (backfillRow F (S.foldl dictUpdate b)) := by
    rw [keys_foldl_dictUpdate]
    refine dedupAppend_absorb _ _ ?_
    intro q hq
    refine mem_keysOf_backfillRow_left F _ q ?_
    rw [hkX]
    exact (mem_dedupAppend _ _ q).mpr (Or.inr hq)
  have hlook : ∀ k, lookupA (S.foldl dictUpdate (backfillRow F (S.foldl dictUpdate b))) k =
      lookupA (backfillRow F (S.foldl dictUpdate b)) k := by
    intro k
    rw [lookup_foldl_dictUpdate]
    cases hrev : lookupA (S.flatten).reverse k with
    | none => rfl
    | some v =>
      have hXk : lookupA (S.foldl dictUpdate b) k = some v := by
        rw [lookup_foldl_dictUpdate, hrev]
        rfl
      have hYk : lookupA (backfillRow F (S.foldl dictUpdate b)) k = some v :=
        lookupA_backfillRow_some F _ k v hXk
      rw [hYk]
      rfl
  exact assoc_ext _ _ (hkeys ▸ hndY) hkeys hlook

/-! ## Upsert-loop lemmas -/

theorem mergeRows_nil (db : List (Str × Row)) : mergeRows db [] = db := rfl

theorem mergeRows_cons_none (db : List (Str × Row)) (r : Row) (batch : List Row)
    (h : lookupA r pidS = none) :
    mergeRows db (r :: batch) = mergeRows db batch := by
  unfold mergeRows
  rw [List.foldl_cons, h]

theorem mergeRows_cons_some (db : List (Str × Row)) (r : Row) (batch : List Row)
    (pid : Str) (h : lookupA r pidS = some pid) :
    mergeRows db (r :: batch) =
      mergeRows (insertA db pid
        (dictUpdate ((lookupA db pid).getD [(pidS, pid)]) r)) batch := by
  unfold mergeRows
  rw [List.foldl_cons, h]

theorem lookup_mergeRows (k : Str) :
    ∀ (batch : List Row) (db : List (Str × Row)),
      lookupA (mergeRows db batch) k =
        batch.foldl (upsertStep k) (lookupA db k) := by
  intro batch
  induction batch with
  | nil => intro db; rfl
  | cons r batch ih =>
    intro db
    cases hlook : lookupA r pidS with
    | none =>
      have hstep : upsertStep k (lookupA db k) r = lookupA db k := by
        unfold upsertStep
        rw [hlook]
      rw [mergeRows_cons_none db r batch hlook, List.foldl_cons, hstep, ih]
    | some p =>
      have hstep : lookupA (insertA db p
          (dictUpdate ((lookupA db p).getD [(pidS, p)]) r)) k =
          upsertStep k (lookupA db k) r := by
        rw [lookupA_insertA]
        unfold upsertStep
        rw [hlook]
        by_cases hpk : p = k
        · subst hpk
          simp
        · simp [hpk]
      rw [mergeRows_cons_some db r batch p hlook, List.foldl_cons, ih, hstep]

theorem pidsOf_cons_none (r : Row) (batch : List Row) (h : lookupA r pidS = none) :
    pidsOf (r :: batch) = pidsOf batch := by
  unfold pidsOf
  rw [List.filterMap_cons, h]

theorem pidsOf_cons_some (r : Row) (batch : List Row) (p : Str)
    (h : lookupA r pidS = some p) :
    pidsOf (r :: batch) = p :: pidsOf batch := by
  unfold pidsOf
  rw [List.filterMap_cons, h]

theorem keysOf_mergeRows :
    ∀ (batch : List Row) (db : List (Str × Row)),
      keysOf (mergeRows db batch) = dedupAppend (keysOf db) (pidsOf batch) := by
  intro batch
  induction batch with
  | nil => intro db; rfl
  | cons r batch ih =>
    intro db
    cases hlook : lookupA r pidS with
    | none =>
      rw [mergeRows_cons_none db r batch hlook, ih, pidsOf_cons_none r batch hlook]
    | some p =>
      rw [mergeRows_cons_some db r batch p hlook, ih,
        pidsOf_cons_some r batch p hlook, dedupAppend_cons, keysOf_insertA]

theorem nodup_keysOf_mergeRows (batch : List Row) (db : List (Str × Row))
    (h : (keysOf db).Nodup) : (keysOf (mergeRows db batch)).Nodup := by
  rw [keysOf_mergeRows]
  exact nodup_dedupAppend _ _ h

theorem lookupA_mem {β : Type} (d : List (Str × β)) (k : Str) (v : β)
    (h : lookupA d k = some v) : (k, v) ∈ d := by
  unfold lookupA at h
  cases hf : d.find? (fun p => decide (p.1 = k)) with
  | none => rw [hf] at h; exact absurd h (by simp)
  | some p =>
    rw [hf] at h
    have hp1 : p.1 = k := by simpa using List.find?_some hf
    have hp2 : p.2 = v := by simpa using h
    have hmem := List.find?_mem hf
    have hpv : p = (k, v) := by
      cases p
      simp only [Prod.mk.injEq]
      exact ⟨hp1, hp2⟩
    exact hpv ▸ hmem

theorem buildDbRows_fold_pred (C : Row → Prop) :
    ∀ (rows : List Row) (acc : List (Str × Row)),
      (∀ k r, (k, r) ∈ acc → C r) → (∀ r ∈ rows, C r) →
      ∀ k r, (k, r) ∈ rows.foldl loadStep acc → C r := by
  intro rows
  induction rows with
  | nil => intro acc hacc _ k r h; exact hacc k r h
  | cons row rows ih =>
    intro acc hacc hrows k r h
    rw [List.foldl_cons] at h
    cases hlook : lookupA row pidS with
    | none =>
      rw [loadStep_none acc row hlook] at h
      exact ih acc hacc (fun r2 h2 => hrows r2 (List.mem_cons_of_mem _ h2)) k r h
    | some pid =>
      by_cases hpid : pid = []
      · subst hpid
        rw [loadStep_empty acc row hlook] at h
        exact ih acc hacc (fun r2 h2 => hrows r2 (List.mem_cons_of_mem _ h2)) k r h
      · rw [loadStep_insert acc row pid hlook hpid] at h
        refine ih _ ?_ (fun r2 h2 => hrows r2 (List.mem_cons_of_mem _ h2)) k r h
        intro k2 r2 h2
        rcases mem_insertA _ _ _ _ h2 with h2 | h2
        · exact hacc k2 r2 h2
        · injection h2 with _ h2b
          exact h2b ▸ hrows row (List.mem_cons_self _ _)

theorem buildDbRows_row_mem (rows : List Row) :
    ∀ k r, (k, r) ∈ buildDbRows rows → r ∈ rows :=
  fun k r h =>
    buildDbRows_fold_pred (fun r2 => r2 ∈ rows) rows []
      (by intro k2 r2 h2; exact absurd h2 (List.not_mem_nil _))
      (fun _ hr => hr) k r h

theorem nodup_keysOf_buildDbRows (rows : List Row) :
    (keysOf (buildDbRows rows)).Nodup := by
  suffices h : ∀ (rows : List Row) (acc : List (Str × Row)), (keysOf acc).Nodup →
      (keysOf (rows.foldl loadStep acc)).Nodup by
    exact h rows [] List.nodup_nil
  intro rows
  induction rows with
  | nil => intro acc hacc; exact hacc
  | cons row rows ih =>
    intro acc hacc
    rw [List.foldl_cons]
    cases hlook : lookupA row pidS with
    | none =>
      rw [loadStep_none acc row hlook]
      exact ih acc hacc
    | some pid =>
      by_cases hpid : pid = []
      · subst hpid
        rw [loadStep_empty acc row hlook]
        exact ih acc hacc
      · rw [loadStep_insert acc row pid hlook hpid]
        exact ih _ (nodup_keysOf_insertA acc pid row hacc)

theorem buildDbRows_lookup_spec (rows : List Row)
    (hnd : ∀ r ∈ rows, (keysOf r).Nodup) (k : Str) (row : Row)
    (h : lookupA (buildDbRows rows) k = some row) :
    lookupA row pidS = some k ∧ k ≠ [] ∧ (keysOf row).Nodup := by
  have hmem := lookupA_mem _ _ _ h
  obtain ⟨h1, h2⟩ := buildDbRows_entries rows k row hmem
  exact ⟨h1, h2, hnd row (buildDbRows_row_mem rows k row hmem)⟩

theorem mergeRows_lookup_spec :
    ∀ (batch : List Row) (db : List (Str × Row)),
      (∀ r ∈ batch, (keysOf r).Nodup) →
      (∀ k row, lookupA db k = some row →
        lookupA row pidS = some k ∧ (keysOf row).Nodup) →
      ∀ k row, lookupA (mergeRows db batch) k = some row →
        lookupA row pidS = some k ∧ (keysOf row).Nodup := by
  intro batch
  induction batch with
  | nil => intro db _ hdb; exact hdb
  | cons r batch ih =>
    intro db hbn hdb
    cases hlook : lookupA r pidS with
    | none =>
      rw [mergeRows_cons_none db r batch hlook]
      exact ih db (fun r2 h2 => hbn r2 (List.mem_cons_of_mem _ h2)) hdb
    | some p =>
      rw [mergeRows_cons_some db r batch p hlook]
      refine ih _ (fun r2 h2 => hbn r2 (List.mem_cons_of_mem _ h2)) ?_
      intro k row hk
      rw [lookupA_insertA] at hk
      by_cases hpk : p = k
      · subst hpk
        rw [if_pos rfl] at hk
        injection hk with hk
        subst hk
        constructor
        · rw [lookupA_dictUpdate,
            lookupA_reverse_of_nodup r (hbn r (List.mem_cons_self _ _)) pidS, hlook]
          rfl
        · apply nodup_keysOf_dictUpdate
          cases hbase : lookupA db p with
          | none =>
            rw [Option.getD_none]
            simp [keysOf]
          | some base0 =>
            rw [Option.getD_some]
            exact (hdb p base0 hbase).2
      · rw [if_neg hpk] at hk
        exact hdb k row hk

theorem sortPids_ok_perm (ks ks2 : List Str) (h : sortPids ks = Except.ok ks2) :
    ks2.Perm ks := by
  unfold sortPids at h
  by_cases h1 : ks.all pyIsdigit
  · rw [if_pos h1] at h
    injection h with h
    exact h ▸ List.perm_insertionSort _ ks
  · rw [if_neg h1] at h
    by_cases h2 : ks.all (fun k => !pyIsdigit k)
    · rw [if_pos h2] at h
      injection h with h
      exact h ▸ List.perm_insertionSort _ ks
    · rw [if_neg h2] at h
      exact absurd h (by simp)

/-- `update_database` when the identifier sort raises. -/
theorem update_database_def_err (file : DbFile) (inc : List Row) (f : List Str)
    (e : DbError)
    (hs : sortPids (keysOf (mergeRows (buildDbRows (fileRows file)) inc)) =
      Except.error e) :
    update_database file inc f = Except.error e := by
  simp only [update_database, load_database, hs]

/-- `update_database` when the identifier sort succeeds. -/
theorem update_database_def_ok (file : DbFile) (inc : List Row) (f : List Str)
    (ks : List Str)
    (hs : sortPids (keysOf (mergeRows (buildDbRows (fileRows file)) inc)) =
      Except.ok ks) :
    update_database file inc f =
      (if (ks.map (outRow (merge_fieldnames (dbFields file) f)
            (mergeRows (buildDbRows (fileRows file)) inc))).all
          (fun r => r.all (fun p => decide (p.1 ∈ merge_fieldnames (dbFields file) f)))
        then
          Except.ok (merge_fieldnames (dbFields file) f,
            ks.map (outRow (merge_fieldnames (dbFields file) f)
              (mergeRows (buildDbRows (fileRows file)) inc)))
        else Except.error DbError.valueError) := by
  simp only [update_database, load_database, hs]

/-- Success characterization of `update_database`. -/
theorem update_database_ok_iff (file : DbFile) (inc : List Row) (f : List Str)
    (fns : List Str) (rows : List Row) :
    update_database file inc f = Except.ok (fns, rows) ↔
      (fns = merge_fieldnames (dbFields file) f ∧
       ∃ ks, sortPids (keysOf (mergeRows (buildDbRows (fileRows file)) inc)) =
          Except.ok ks ∧
        rows = ks.map (outRow fns (mergeRows (buildDbRows (fileRows file)) inc)) ∧
        rows.all (fun r => r.all (fun p => decide (p.1 ∈ fns))) = true) := by
  constructor
  · intro h
    cases hs : sortPids (keysOf (mergeRows (buildDbRows (fileRows file)) inc)) with
    | error e =>
      rw [update_database_def_err file inc f e hs] at h
      exact absurd h (by simp)
    | ok ks =>
      rw [update_database_def_ok file inc f ks hs] at h
      split at h
      · next hcond =>
        injection h with h
        have h1 := congrArg Prod.fst h
        have h2 := congrArg Prod.snd h
        simp only at h1 h2
        refine ⟨h1.symm, ks, rfl, ?_, ?_⟩
        · rw [← h1, ← h2]
        · rw [← h1, ← h2]
          exact hcond
      · next hcond => exact absurd h (by simp)
  · rintro ⟨rfl, ks, hs, hrows, hcheck⟩
    rw [update_database_def_ok file inc f ks hs, ← hrows, if_pos hcheck]

/-- **C3**: upserting a row for an already-known identifier that
supplies only some columns leaves the identifier's previously stored
value for every column absent from the incoming row unchanged in the
resulting master table. -/
theorem C3_update_database_frame (file : DbFile) (r : Row) (incf : List Str)
    (pid : Str) (old : Row) (colY v : Str) (fns : List Str) (outRows : List Row)
    (hndr : (keysOf r).Nodup)
    (hfile_nd : ∀ row ∈ fileRows file, (keysOf row).Nodup)
    (hold : lookupA (load_database file).1 pid = some old)
    (hpid : lookupA r pidS = some pid)
    (habsent : lookupA r colY = none)
    (hv : lookupA old colY = some v)
    (hok : update_database file [r] incf = Except.ok (fns, outRows)) :
    ∀ orow ∈ outRows, lookupA orow pidS = some pid → lookupA orow colY = some v := by
  intro orow horow hopid
  obtain ⟨hfns, ks, hs, hrows, hcheck⟩ := (update_database_ok_iff file [r] incf fns outRows).mp hok
  have hold2 : lookupA (buildDbRows (fileRows file)) pid = some old := hold
  have hP1 : ∀ k2 row,
      lookupA (mergeRows (buildDbRows (fileRows file)) [r]) k2 = some row →
        lookupA row pidS = some k2 ∧ (keysOf row).Nodup := by
    refine mergeRows_lookup_spec [r] _ ?_ ?_
    · intro r2 h2
      rcases List.mem_singleton.mp h2 with rfl
      exact hndr
    · intro k2 row h2
      have hspec := buildDbRows_lookup_spec _ hfile_nd k2 row h2
      exact ⟨hspec.1, hspec.2.2⟩
  rw [hrows] at horow
  obtain ⟨k, hk, horoweq⟩ := List.mem_map.mp horow
  have hperm := sortPids_ok_perm _ ks hs
  have hkmem : k ∈ keysOf (mergeRows (buildDbRows (fileRows file)) [r]) :=
    hperm.mem_iff.mp hk
  obtain ⟨rowk, hrowk⟩ : ∃ rowk,
      lookupA (mergeRows (buildDbRows (fileRows file)) [r]) k = some rowk := by
    have := (lookupA_isSome_iff _ k).mpr hkmem
    cases hc : lookupA (mergeRows (buildDbRows (fileRows file)) [r]) k with
    | none => rw [hc] at this; exact absurd this (by simp)
    | some rowk => exact ⟨rowk, rfl⟩
  have horow2 : orow = backfillRow fns rowk := by
    rw [← horoweq]
    unfold outRow
    rw [hrowk, Option.getD_some]
  have hkpid : k = pid := by
    have hpidfield : lookupA (backfillRow fns rowk) pidS = some k :=
      lookupA_backfillRow_some fns rowk pidS k (hP1 k rowk hrowk).1
    rw [horow2, hpidfield] at hopid
    injection hopid
  subst hkpid
  have hdbk : lookupA (mergeRows (buildDbRows (fileRows file)) [r]) k =
      some (dictUpdate old r) := by
    rw [lookup_mergeRows k [r] (buildDbRows (fileRows file))]
    show upsertStep k (lookupA (buildDbRows (fileRows file)) k) r = _
    unfold upsertStep
    simp only [hpid]
    rw [if_pos trivial, hold2, Option.getD_some]
  have hrowkeq : rowk = dictUpdate old r := by
    rw [hdbk] at hrowk
    injection hrowk with hrowk
    exact hrowk.symm
  have hvalY : lookupA (dictUpdate old r) colY = some v := by
    rw [lookupA_dictUpdate, lookupA_reverse_of_nodup r hndr colY, habsent]
    show lookupA old colY = some v
    exact hv
  rw [horow2, hrowkeq]
  exact lookupA_backfillRow_some fns _ colY v hvalY

/-- Concrete instance of C3: the stored value of column `b` survives an
update that supplies only column `a` for the same identifier. -/
theorem C3_witness :
    lookupA [(pidS, str "1"), (str "a", str "z"), (str "b", str "y")] (str "b") =
      some (str "y") := by
  have hok : update_database
      (some ([pidS, str "a", str "b"],
        [[(pidS, str "1"), (str "a", str "x"), (str "b", str "y")]]))
      [[(pidS, str "1"), (str "a", str "z")]] [pidS, str "a"] =
      Except.ok ([pidS, str "a", str "b"],
        [[(pidS, str "1"), (str "a", str "z"), (str "b", str "y")]]) := by decide
  exact C3_update_database_frame
    (some ([pidS, str "a", str "b"],
      [[(pidS, str "1"), (str "a", str "x"), (str "b", str "y")]]))
    [(pidS, str "1"), (str "a", str "z")] [pidS, str "a"]
    (str "1") [(pidS, str "1"), (str "a", str "x"), (str "b", str "y")]
    (str "b") (str "y")
    [pidS, str "a", str "b"]
    [[(pidS, str "1"), (str "a", str "z"), (str "b", str "y")]]
    (by decide) (by decide) (by decide) (by decide) (by decide) (by decide)
    hok
    [(pidS, str "1"), (str "a", str "z"), (str "b", str "y")]
    (by decide) (by decide)

/-- **C4**: schema monotonicity — every column present in the table's
schema after a first merge is still present after a second merge into
the resulting table; `update_database` never removes a column. -/
theorem C4_schema_monotonic (file : DbFile)
    (inc1 : List Row) (f1 : List Str) (inc2 : List Row) (f2 : List Str)
    (fns1 : List Str) (rows1 : List Row) (fns2 : List Str) (rows2 : List Row)
    (h1 : update_database file inc1 f1 = Except.ok (fns1, rows1))
    (h2 : update_database (some (fns1, rows1)) inc2 f2 = Except.ok (fns2, rows2)) :
    ∀ c ∈ fns1, c ∈ fns2 := by
  intro c hc
  have hfns1 : fns1 = merge_fieldnames (dbFields file) f1 :=
    ((update_database_ok_iff file inc1 f1 fns1 rows1).mp h1).1
  have hfns2 : fns2 = merge_fieldnames (dbFields (some (fns1, rows1))) f2 :=
    ((update_database_ok_iff _ inc2 f2 fns2 rows2).mp h2).1
  have hne : fns1 ≠ [] := by
    rw [hfns1]
    exact merge_fieldnames_ne_nil _ _
  have hdb : dbFields (some (fns1, rows1)) = fns1 := by
    simp only [dbFields]
    rw [if_neg hne]
  rw [hfns2, hdb]
  exact (mem_merge_fieldnames fns1 f2 c).mpr (Or.inr (Or.inl hc))

/-- Concrete instance of C4: the `goals` column introduced by the first
merge survives a second merge whose batch does not mention it. -/
theorem C4_witness : str "goals" ∈ [pidS, str "goals"] := by
  have h1 : update_database none [[(pidS, str "1"), (str "goals", str "3")]]
      [pidS, str "goals"] =
      Except.ok ([pidS, str "goals"], [[(pidS, str "1"), (str "goals", str "3")]]) := by
    decide
  have h2 : update_database
      (some ([pidS, str "goals"], [[(pidS, str "1"), (str "goals", str "3")]]))
      [[(pidS, str "1")]] [pidS] =
      Except.ok ([pidS, str "goals"], [[(pidS, str "1"), (str "goals", str "3")]]) := by
    decide
  exact C4_schema_monotonic none
    [[(pidS, str "1"), (str "goals", str "3")]] [pidS, str "goals"]
    [[(pidS, str "1")]] [pidS]
    [pidS, str "goals"] [[(pidS, str "1"), (str "goals", str "3")]]
    [pidS, str "goals"] [[(pidS, str "1"), (str "goals", str "3")]]
    h1 h2 (str "goals") (by decide)

/-! ## Re-merge idempotence lemmas (C5) -/

theorem buildDbRows_map_aux (f : Str → Row) :
    ∀ (ks : List Str) (acc : List (Str × Row)),
      (∀ k ∈ ks, lookupA (f k) pidS = some k) →
      ks.Nodup →
      (∀ k ∈ ks, k ∉ keysOf acc) →
      (ks.map f).foldl loadStep acc =
      acc ++ (ks.filter (fun k => ¬ k = [])).map (fun k => (k, f k)) := by
  intro ks
  induction ks with
  | nil => intro acc _ _ _; simp
  | cons k ks ih =>
    intro acc hf hnd hacc
    rw [List.nodup_cons] at hnd
    rw [List.map_cons, List.foldl_cons]
    by_cases hk : k = []
    · rw [show loadStep acc (f k) = acc from by
          subst hk; exact loadStep_empty acc (f []) (hf [] (List.mem_cons_self _ _)),
        List.filter_cons_of_neg (by simpa using hk)]
      exact ih acc (fun k2 h2 => hf k2 (List.mem_cons_of_mem _ h2)) hnd.2
        (fun k2 h2 => hacc k2 (List.mem_cons_of_mem _ h2))
    · rw [loadStep_insert acc (f k) k (hf k (List.mem_cons_self _ _)) hk,
        insertA_of_not_mem acc k (f k) (hacc k (List.mem_cons_self _ _)),
        List.filter_cons_of_pos (by simpa using hk), List.map_cons]
      rw [ih (acc ++ [(k, f k)]) (fun k2 h2 => hf k2 (List.mem_cons_of_mem _ h2)) hnd.2 ?hacc2]
      · rw [List.append_assoc, List.singleton_append]
      case hacc2 =>
        intro k2 h2
        rw [keysOf_append]
        intro hmem
        rcases List.mem_append.mp hmem with hmem | hmem
        · exact hacc k2 (List.mem_cons_of_mem _ h2) hmem
        · have : k2 = k := by simpa [keysOf] using hmem
          exact hnd.1 (this ▸ h2)

theorem buildDbRows_map (ks : List Str) (f : Str → Row)
    (hf : ∀ k ∈ ks, lookupA (f k) pidS = some k) (hnd : ks.Nodup) :
    buildDbRows (ks.map f) =
      (ks.filter (fun k => ¬ k = [])).map (fun k => (k, f k)) := by
  unfold buildDbRows
  rw [buildDbRows_map_aux f ks [] hf hnd (by intro k _; simp [keysOf_nil]),
    List.nil_append]

theorem lookupA_map_pair (f : Str → Row) :
    ∀ (ks : List Str) (k0 : Str),
      lookupA (ks.map (fun k => (k, f k))) k0 =
        if k0 ∈ ks then some (f k0) else none := by
  intro ks
  induction ks with
  | nil => intro k0; simp [lookupA_nil]
  | cons k ks ih =>
    intro k0
    rw [List.map_cons, lookupA_cons]
    by_cases hk : k = k0
    · subst hk
      rw [if_pos (show (k, f k).1 = k from rfl), if_pos (List.mem_cons_self _ _)]
    · rw [if_neg (show ¬ (k, f k).1 = k0 from hk), ih]
      by_cases hm : k0 ∈ ks
      · rw [if_pos hm, if_pos (List.mem_cons_of_mem _ hm)]
      · have hnm : k0 ∉ k :: ks := by
          rw [List.mem_cons]
          push_neg
          exact ⟨fun h => hk h.symm, hm⟩
        rw [if_neg hm, if_neg hnm]

theorem foldl_upsertStep_some (k : Str) :
    ∀ (batch : List Row) (b : Row),
      batch.foldl (upsertStep k) (some b) =
        some ((pidFilter k batch).foldl dictUpdate b) := by
  intro batch
  induction batch with
  | nil => intro b; rfl
  | cons r batch ih =>
    intro b
    rw [List.foldl_cons]
    cases hlook : lookupA r pidS with
    | none =>
      have hstep : upsertStep k (some b) r = some b := by
        unfold upsertStep
        rw [hlook]
      have hfilt : pidFilter k (r :: batch) = pidFilter k batch := by
        unfold pidFilter
        rw [List.filter_cons_of_neg (by simp [hlook])]
      rw [hstep, hfilt, ih]
    | some p =>
      by_cases hpk : p = k
      · subst hpk
        have hstep : upsertStep p (some b) r = some (dictUpdate b r) := by
          unfold upsertStep
          simp only [hlook]
          simp
        have hfilt : pidFilter p (r :: batch) = r :: pidFilter p batch := by
          unfold pidFilter
          rw [List.filter_cons_of_pos (by simp [hlook])]
        rw [hstep, hfilt, List.foldl_cons, ih (dictUpdate b r)]
      · have hstep : upsertStep k (some b) r = some b := by
          unfold upsertStep
          simp only [hlook]
          rw [if_neg hpk]
        have hfilt : pidFilter k (r :: batch) = pidFilter k batch := by
          unfold pidFilter
          rw [List.filter_cons_of_neg (by simp [hlook, hpk])]
        rw [hstep, hfilt, ih]

theorem foldl_upsertStep_none_some (k : Str) :
    ∀ (batch : List Row) (X : Row),
      batch.foldl (upsertStep k) none = some X →
      batch.foldl (upsertStep k) (some [(pidS, k)]) = some X := by
  intro batch
  induction batch with
  | nil => intro X h; exact absurd h (by simp)
  | cons r batch ih =>
    intro X h
    rw [List.foldl_cons] at h ⊢
    cases hlook : lookupA r pidS with
    | none =>
      have hnone : upsertStep k none r = none := by
        unfold upsertStep
        rw [hlook]
      have hsome : upsertStep k (some [(pidS, k)]) r = some [(pidS, k)] := by
        unfold upsertStep
        rw [hlook]
      rw [hnone] at h
      rw [hsome]
      exact ih X h
    | some p =>
      by_cases hpk : p = k
      · subst hpk
        have hnone : upsertStep p none r = some (dictUpdate [(pidS, p)] r) := by
          unfold upsertStep
          simp only [hlook]
          simp
        have hsome : upsertStep p (some [(pidS, p)]) r =
            some (dictUpdate [(pidS, p)] r) := by
          unfold upsertStep
          simp only [hlook]
          simp
        rw [hnone] at h
        rw [hsome]
        exact h
      · have hnone : upsertStep k none r = none := by
          unfold upsertStep
          simp only [hlook]
          rw [if_neg hpk]
        have hsome : upsertStep k (some [(pidS, k)]) r = some [(pidS, k)] := by
          unfold upsertStep
          simp only [hlook]
          rw [if_neg hpk]
        rw [hnone] at h
        rw [hsome]
        exact ih X h

theorem sortPids_digit_eq (ks : List Str) (h : ks.all pyIsdigit = true) :
    sortPids ks =
      Except.ok (ks.insertionSort (fun a b => strToNat a ≤ strToNat b)) := by
  unfold sortPids
  rw [if_pos h]

theorem sortPids_lex_eq (ks : List Str) (h1 : ¬ ks.all pyIsdigit = true)
    (h2 : ks.all (fun k => !pyIsdigit k) = true) :
    sortPids ks = Except.ok (ks.insertionSort (fun a b : Str => a ≤ b)) := by
  unfold sortPids
  rw [if_neg h1, if_pos h2]

/-- Re-running the upsert loop with a stored row whose base is the
backfilled first-run result reproduces that result exactly. -/
theorem mergeRows_reapply_lookup (db0 : List (Str × Row)) (batch : List Row)
    (F : List Str) (k : Str)
    (hk : k ∈ keysOf (mergeRows db0 batch))
    (hnd0 : ∀ k2 row, lookupA db0 k2 = some row → (keysOf row).Nodup) :
    batch.foldl (upsertStep k) (some (outRow F (mergeRows db0 batch) k)) =
      some (outRow F (mergeRows db0 batch) k) := by
  obtain ⟨X, hX⟩ : ∃ X, lookupA (mergeRows db0 batch) k = some X := by
    have := (lookupA_isSome_iff _ k).mpr hk
    cases hc : lookupA (mergeRows db0 batch) k with
    | none => rw [hc] at this; exact absurd this (by simp)
    | some X => exact ⟨X, rfl⟩
  have hout : outRow F (mergeRows db0 batch) k = backfillRow F X := by
    unfold outRow
    rw [hX, Option.getD_some]
  have hfold := lookup_mergeRows k batch db0
  rw [hX] at hfold
  cases hb : lookupA db0 k with
  | some b =>
    rw [hb, foldl_upsertStep_some k batch b] at hfold
    injection hfold with hfold
    rw [hout, hfold, foldl_upsertStep_some k batch _,
      applyB_backfill_absorb (pidFilter k batch) F b (hnd0 k b hb)]
  | none =>
    rw [hb] at hfold
    have hseed := foldl_upsertStep_none_some k batch X hfold.symm
    rw [foldl_upsertStep_some k batch _] at hseed
    injection hseed with hseed
    have hndseed : (keysOf [(pidS, k)]).Nodup := by simp [keysOf]
    rw [hout, ← hseed, foldl_upsertStep_some k batch _,
      applyB_backfill_absorb (pidFilter k batch) F [(pidS, k)] hndseed]

theorem pyIsdigit_ne_nil (s : Str) (h : pyIsdigit s = true) : s ≠ [] := by
  intro hnil
  subst hnil
  simp [pyIsdigit] at h

theorem keysOf_map_pair (f : Str → Row) (ks : List Str) :
    keysOf (ks.map (fun k => (k, f k))) = ks := by
  unfold keysOf
  rw [List.map_map]
  exact List.map_id ks

/-- **C5**: upserting the exact same batch (with the same incoming
column list) twice in a row yields, after the second merge, a master
table identical — same schema, same rows, same order — to the table
after the first merge.  The hypotheses state that the persisted-file
rows and the batch rows are genuine dicts (duplicate-free keys), as CSV
readers and Python dicts guarantee. -/
theorem C5_update_database_idempotent (file : DbFile) (batch : List Row)
    (incf : List Str) (fns1 : List Str) (rows1 : List Row)
    (hfile_nd : ∀ row ∈ fileRows file, (keysOf row).Nodup)
    (hbatch_nd : ∀ row ∈ batch, (keysOf row).Nodup)
    (h1 : update_database file batch incf = Except.ok (fns1, rows1)) :
    update_database (some (fns1, rows1)) batch incf = Except.ok (fns1, rows1) := by
  obtain ⟨hfns1, ks1, hks1, hrows1, hcheck⟩ :=
    (update_database_ok_iff file batch incf fns1 rows1).mp h1
  -- shorthand facts about the first merge
  have hfns1_ne : fns1 ≠ [] := by
    rw [hfns1]
    exact merge_fieldnames_ne_nil _ _
  have hdbF2 : dbFields (some (fns1, rows1)) = fns1 := by
    simp only [dbFields]
    rw [if_neg hfns1_ne]
  have hfns2 : merge_fieldnames fns1 incf = fns1 := by
    rw [hfns1]
    exact merge_fieldnames_absorb _ _ incf
      (fun c hc => (mem_merge_fieldnames _ _ c).mpr (Or.inr (Or.inr hc)))
  have hnd0 : ∀ k row, lookupA (buildDbRows (fileRows file)) k = some row →
      (keysOf row).Nodup :=
    fun k row h => (buildDbRows_lookup_spec _ hfile_nd k row h).2.2
  have hP1A : ∀ k row,
      lookupA (mergeRows (buildDbRows (fileRows file)) batch) k = some row →
        lookupA row pidS = some k ∧ (keysOf row).Nodup :=
    mergeRows_lookup_spec batch _ hbatch_nd
      (fun k row h =>
        ⟨(buildDbRows_lookup_spec _ hfile_nd k row h).1,
         (buildDbRows_lookup_spec _ hfile_nd k row h).2.2⟩)
  have hndKeysA : (keysOf (mergeRows (buildDbRows (fileRows file)) batch)).Nodup :=
    nodup_keysOf_mergeRows _ _ (nodup_keysOf_buildDbRows _)
  have hperm1 := sortPids_ok_perm _ ks1 hks1
  have hndks1 : ks1.Nodup := hperm1.nodup_iff.mpr hndKeysA
  have hk0ne : ∀ k ∈ keysOf (buildDbRows (fileRows file)), ¬ k = [] := by
    intro k hkm hknil
    have hsome := (lookupA_isSome_iff _ k).mpr hkm
    cases hc : lookupA (buildDbRows (fileRows file)) k with
    | none => rw [hc] at hsome; exact absurd hsome (by simp)
    | some row =>
      exact (buildDbRows_lookup_spec _ hfile_nd k row hc).2.1 hknil
  have hsomeA : ∀ k ∈ ks1,
      ∃ row, lookupA (mergeRows (buildDbRows (fileRows file)) batch) k = some row := by
    intro k hk
    have hkm := hperm1.mem_iff.mp hk
    have hsome := (lookupA_isSome_iff _ k).mpr hkm
    cases hc : lookupA (mergeRows (buildDbRows (fileRows file)) batch) k with
    | none => rw [hc] at hsome; exact absurd hsome (by simp)
    | some row => exact ⟨row, rfl⟩
  have hfpid : ∀ k ∈ ks1,
      lookupA (outRow fns1 (mergeRows (buildDbRows (fileRows file)) batch) k) pidS =
        some k := by
    intro k hk
    obtain ⟨row, hrow⟩ := hsomeA k hk
    have hpidrow := (hP1A k row hrow).1
    unfold outRow
    rw [hrow, Option.getD_some]
    exact lookupA_backfillRow_some fns1 row pidS k hpidrow
  -- the reloaded table
  have hdb0p : buildDbRows rows1 =
      (ks1.filter (fun k => ¬ k = [])).map
        (fun k => (k, outRow fns1 (mergeRows (buildDbRows (fileRows file)) batch) k)) := by
    rw [hrows1]
    exact buildDbRows_map ks1 _ hfpid hndks1
  have hkeys0p : keysOf (buildDbRows rows1) = ks1.filter (fun k => ¬ k = []) := by
    rw [hdb0p, keysOf_map_pair]
  have hlook0p : ∀ k, lookupA (buildDbRows rows1) k =
      if k ∈ ks1.filter (fun k => ¬ k = []) then
        some (outRow fns1 (mergeRows (buildDbRows (fileRows file)) batch) k)
      else none := by
    intro k
    rw [hdb0p]
    exact lookupA_map_pair _ _ k
  have hpids : ∀ p ∈ pidsOf batch,
      p ∈ keysOf (mergeRows (buildDbRows (fileRows file)) batch) := by
    intro p hp
    rw [keysOf_mergeRows]
    exact (mem_dedupAppend _ _ p).mpr (Or.inr hp)
  have hkeysB : keysOf (mergeRows (buildDbRows rows1) batch) =
      dedupAppend (ks1.filter (fun k => ¬ k = [])) (pidsOf batch) := by
    rw [keysOf_mergeRows, hkeys0p]
  have hmemB : ∀ a, a ∈ keysOf (mergeRows (buildDbRows rows1) batch) ↔ a ∈ ks1 := by
    intro a
    rw [hkeysB, mem_dedupAppend]
    constructor
    · rintro (h | h)
      · exact (List.mem_filter.mp h).1
      · exact hperm1.mem_iff.mpr (hpids a h)
    · intro h
      by_cases ha : a = []
      · subst ha
        have hma : ([] : Str) ∈ keysOf (mergeRows (buildDbRows (fileRows file)) batch) :=
          hperm1.mem_iff.mp h
        rw [keysOf_mergeRows, mem_dedupAppend] at hma
        rcases hma with hma | hma
        · exact absurd rfl (hk0ne [] hma)
        · exact Or.inr hma
      · exact Or.inl (List.mem_filter.mpr ⟨h, by simpa using ha⟩)
  have hndB : (keysOf (mergeRows (buildDbRows rows1) batch)).Nodup := by
    rw [hkeysB]
    exact nodup_dedupAppend _ _ (hndks1.filter _)
  -- per-key row preservation
  have hrowEq : ∀ k ∈ ks1,
      outRow fns1 (mergeRows (buildDbRows rows1) batch) k =
        outRow fns1 (mergeRows (buildDbRows (fileRows file)) batch) k := by
    intro k hk
    by_cases hknil : k = []
    · subst hknil
      have hnA : lookupA (buildDbRows (fileRows file)) [] = none :=
        (lookupA_eq_none_iff _ _).mpr (fun hm => hk0ne [] hm rfl)
      have hnB : lookupA (buildDbRows rows1) [] = none := by
        rw [hlook0p []]
        rw [if_neg (by
          intro hm
          have := (List.mem_filter.mp hm).2
          simp at this)]
      unfold outRow
      rw [lookup_mergeRows [] batch (buildDbRows rows1),
        lookup_mergeRows [] batch (buildDbRows (fileRows file)), hnA, hnB]
    · have hlk : lookupA (buildDbRows rows1) k =
          some (outRow fns1 (mergeRows (buildDbRows (fileRows file)) batch) k) := by
        rw [hlook0p k]
        rw [if_pos (List.mem_filter.mpr ⟨hk, by simpa using hknil⟩)]
      have hre := mergeRows_reapply_lookup (buildDbRows (fileRows file)) batch fns1 k
        (hperm1.mem_iff.mp hk) hnd0
      have hlkB : lookupA (mergeRows (buildDbRows rows1) batch) k =
          some (outRow fns1 (mergeRows (buildDbRows (fileRows file)) batch) k) := by
        rw [lookup_mergeRows k batch (buildDbRows rows1), hlk]
        exact hre
      unfold outRow
      rw [hlkB, Option.getD_some]
      refine backfillRow_eq_self fns1 _ ?_
      intro f hf
      show f ∈ keysOf (outRow fns1 (mergeRows (buildDbRows (fileRows file)) batch) k)
      unfold outRow
      exact mem_keysOf_backfillRow_field fns1 _ f hf
  -- the second sort returns the first key order
  have hsort2 : sortPids (keysOf (mergeRows (buildDbRows rows1) batch)) =
      Except.ok ks1 := by
    by_cases hdig : (keysOf (mergeRows (buildDbRows (fileRows file)) batch)).all
        pyIsdigit = true
    · -- numeric branch
      have hks1dig : ∀ k ∈ ks1, pyIsdigit k = true := by
        intro k hk
        exact (List.all_eq_true.mp hdig) k (hperm1.mem_iff.mp hk)
      have hfilt : ks1.filter (fun k => ¬ k = []) = ks1 := by
        refine List.filter_eq_self.mpr ?_
        intro k hk
        simpa using pyIsdigit_ne_nil k (hks1dig k hk)
      have hkeysB2 : keysOf (mergeRows (buildDbRows rows1) batch) = ks1 := by
        rw [hkeysB, hfilt]
        refine dedupAppend_absorb _ _ ?_
        intro p hp
        exact hperm1.mem_iff.mpr (hpids p hp)
      have hks1sorted := sortPids_digit_eq _ hdig
      rw [hks1] at hks1sorted
      injection hks1sorted with hks1sorted
      have hsorted : List.Sorted (fun a b => strToNat a ≤ strToNat b) ks1 := by
        rw [hks1sorted]
        exact List.sorted_insertionSort _ _
      rw [hkeysB2, sortPids_digit_eq ks1 (List.all_eq_true.mpr hks1dig),
        hsorted.insertionSort_eq]
    · -- lexical branch
      have hnon : (keysOf (mergeRows (buildDbRows (fileRows file)) batch)).all
          (fun k => !pyIsdigit k) = true := by
        by_contra hcontra
        unfold sortPids at hks1
        rw [if_neg hdig, if_neg hcontra] at hks1
        exact absurd hks1 (by simp)
      have hks1eq : ks1 = List.insertionSort (fun a b : Str => a ≤ b)
          (keysOf (mergeRows (buildDbRows (fileRows file)) batch)) := by
        have h := sortPids_lex_eq _ hdig hnon
        rw [hks1] at h
        injection h
      have hsorted1 : List.Sorted (fun a b : Str => a ≤ b) ks1 := by
        rw [hks1eq]
        exact List.sorted_insertionSort _ _
      have hnonB : (keysOf (mergeRows (buildDbRows rows1) batch)).all
          (fun k => !pyIsdigit k) = true := by
        refine List.all_eq_true.mpr ?_
        intro k hk
        exact (List.all_eq_true.mp hnon) k (hperm1.mem_iff.mp ((hmemB k).mp hk))
      have hdigB : ¬ (keysOf (mergeRows (buildDbRows rows1) batch)).all
          pyIsdigit = true := by
        intro hall
        apply hdig
        refine List.all_eq_true.mpr ?_
        intro k hkA
        by_cases hkk : k ∈ ks1
        · exact (List.all_eq_true.mp hall) k ((hmemB k).mpr hkk)
        · exact absurd (hperm1.mem_iff.mpr hkA) hkk
      have hpermB : (keysOf (mergeRows (buildDbRows rows1) batch)).Perm ks1 :=
        (List.perm_ext_iff_of_nodup hndB hndks1).mpr hmemB
      have hsortedB : List.Sorted (fun a b : Str => a ≤ b)
          (List.insertionSort (fun a b : Str => a ≤ b)
            (keysOf (mergeRows (buildDbRows rows1) batch))) :=
        List.sorted_insertionSort _ _
      have hpermB2 : (List.insertionSort (fun a b : Str => a ≤ b)
          (keysOf (mergeRows (buildDbRows rows1) batch))).Perm ks1 :=
        (List.perm_insertionSort _ _).trans hpermB
      rw [sortPids_lex_eq _ hdigB hnonB,
        List.eq_of_perm_of_sorted hpermB2 hsortedB hsorted1]
  -- assemble the second run
  have hmap : ks1.map (outRow fns1 (mergeRows (buildDbRows rows1) batch)) = rows1 := by
    conv_rhs => rw [hrows1]
    exact List.map_congr_left hrowEq
  have hfr : fileRows (some (fns1, rows1)) = rows1 := rfl
  rw [update_database_def_ok (some (fns1, rows1)) batch incf ks1 (by rw [hfr]; exact hsort2)]
  rw [hfr, hdbF2, hfns2, hmap, if_pos hcheck]

/-- Concrete instance of C5: re-merging the same one-row batch into the
table it produced returns that table unchanged. -/
theorem C5_witness :
    update_database (some ([pidS, str "g"], [[(pidS, str "1"), (str "g", str "5")]]))
      [[(pidS, str "1"), (str "g", str "5")]] [pidS, str "g"] =
      Except.ok ([pidS, str "g"], [[(pidS, str "1"), (str "g", str "5")]]) := by
  have h1 : update_database none [[(pidS, str "1"), (str "g", str "5")]]
      [pidS, str "g"] =
      Except.ok ([pidS, str "g"], [[(pidS, str "1"), (str "g", str "5")]]) := by
    decide
  exact C5_update_database_idempotent none
    [[(pidS, str "1"), (str "g", str "5")]] [pidS, str "g"]
    [pidS, str "g"] [[(pidS, str "1"), (str "g", str "5")]]
    (by intro row h; exact absurd h (List.not_mem_nil row))
    (by
      intro row h
      rcases List.mem_singleton.mp h with rfl
      decide)
    h1

end Scrape
